import Mathlib

/-!
Verification of the incremental quantile tracker of the `sliding_quantiles`
repository.

The development embeds, over `List Nat` histograms:

* the reference scan `find_quantile` (`histogram_basic::find_quantile` in
  `include/histogram_quantiles.hpp`, identical to `quern::find_quantile_indexes`
  in `include/quern/histogram.hpp`);
* the incremental convergence step `adjust`
  (`quantile_position::adjust` in `include/histogram_quantiles.hpp`, identical
  to `quern::histogram_tracked::quantile::adjust` in
  `include/quern/histogram_tracked.hpp`), instrumented with the list of bin
  indices it reads;
* the index-level tracker engine (`edb::quantile_tracker` of
  `include/histogram_quantiles.hpp`, plus the `recalculate`/`add_quantiles`
  operations of `quern::histogram_tracked`, which work purely on bin indices);
* the sample-level `quern::histogram_tracked` engine with an integer linear
  binning (offset `bmin`), which exposes the sample-versus-index distinction
  of its `insert`/`remove`/`replace`.

Arithmetic conventions: the C++ counters are unsigned (`size_t`/`uint32_t`).
Unsigned wraparound is observable in-spec only when a count or the population
is decremented at zero; those decrements are modelled exactly with mod-2^64
arithmetic (`sub64`).  Increments and the products `population * numerator`
etc. are modelled on `Nat`; the spec (§3) requires the integer width to hold
`population * denominator`, so no in-spec behaviour depends on their overflow.

Each C++ `while` loop iterates at most `size` times (its cursor moves strictly
monotonically through `[0, size)`); the loops are written below with an explicit
iteration budget (`fuel`) which every call site sets to `size`, and every loop
lemma shows the guard, never the budget, is the binding exit condition.
-/

namespace Quern


/-- The modulus of the unsigned `size_t` counters. -/
def W : Nat := 2 ^ 64

/-- `size_t` subtraction `a - b`, wrapping around mod `2^64`
(for `a, b < 2^64` this is exact when `b ≤ a` and wraps otherwise). -/
def sub64 (a b : Nat) : Nat := (W + a - b) % W

/-- Count stored at bin `i`; out-of-range reads yield 0 (matching
`grid::at_index(i, out_of_range_value)` with a zero default). -/
def countAt (h : List Nat) (i : Nat) : Nat := h.getD i 0

/-- Number of samples in bins with index strictly below `b` — the quantity the
cached counter `samples_lower` is specified to track. -/
def sumBelow (h : List Nat) (b : Nat) : Nat := (h.take b).sum

/-- The location of a quantile: `struct quantile_range { lower, upper }`. -/
structure QuantileRange where
  lower : Nat
  upper : Nat
deriving DecidableEq, Repr

/-- `quantile_range::is_range`: the range is a genuine (split) range. -/
def QuantileRange.isRange (r : QuantileRange) : Bool := r.lower != r.upper

/-- One tracked quantile: `struct quantile_position` of
`histogram_quantiles.hpp` (= `histogram_tracked::quantile` of
`quern/histogram_tracked.hpp`): the fraction `num/den`, the tracked range,
the cached `samples_lower`, and the debug direction flag `last_adjust`. -/
structure QuantilePosition where
  num : Nat
  den : Nat
  lower : Nat
  upper : Nat
  samples_lower : Nat
  last_adjust : Int := 0
deriving DecidableEq, Repr

/-! ## The reference scan

`histogram_basic::find_quantile` / `quern::find_quantile_indexes`:

    quota = population * numerator; leq = counts[0] * denominator; index = 0;
    while (index+1 < size && leq < quota) leq += counts[++index] * denominator;
    result.lower = index;
    if (leq == quota) while (index+1 < size) { if (counts[++index]) break; }
    result.upper = index;
-/

/-- The accumulation loop of the reference scan. -/
def fqLoop (h : List Nat) (size den quota : Nat) : Nat → Nat → Nat → Nat × Nat
  | 0, index, leq => (index, leq)
  | fuel + 1, index, leq =>
    if index + 1 < size ∧ leq < quota then
      fqLoop h size den quota fuel (index + 1) (leq + countAt h (index + 1) * den)
    else (index, leq)

/-- The tie loop of the reference scan: step upward, stopping at the first
nonempty bin (or at the last bin). -/
def fqScanZeros (h : List Nat) (size : Nat) : Nat → Nat → Nat
  | 0, index => index
  | fuel + 1, index =>
    if index + 1 < size then
      if countAt h (index + 1) ≠ 0 then index + 1
      else fqScanZeros h size fuel (index + 1)
    else index

/-- The reference scan.  `population` is the caller's population reading
(`_population` for `histogram_basic::find_quantile`, `calc_population()` —
the sum of the counts — for `quern::find_quantile_indexes`). -/
def find_quantile (h : List Nat) (population num den : Nat) : QuantileRange :=
  let size := h.length
  let quota := population * num
  let r := fqLoop h size den quota size 0 (countAt h 0 * den)
  let upper := if r.2 = quota then fqScanZeros h size size r.1 else r.1
  ⟨r.1, upper⟩

/-! ## The incremental convergence step `adjust`

Each loop returns its final local variables together with the list of bin
indices it read. -/

/-- Result of the slide-up loop: final `bin`, `here`, `samples_lower`, `lte`. -/
structure UpRes where
  bin : Nat
  here : Nat
  sl : Nat
  lte : Nat
  reads : List Nat
deriving Repr

/-- Branch 1 loop:
`while (bin+1 < size && lte*den < lte_ratio) { samples_lower += here;
here = h[++bin]; lte += here; if (lte*den >= lte_ratio) break; }`
(the mid-loop `break` re-tests the same condition the guard does). -/
def slideUp (h : List Nat) (size den lteRatio : Nat) :
    Nat → Nat → Nat → Nat → Nat → UpRes
  | 0, bin, here, sl, lte => ⟨bin, here, sl, lte, []⟩
  | fuel + 1, bin, here, sl, lte =>
    if bin + 1 < size ∧ lte * den < lteRatio then
      let here2 := countAt h (bin + 1)
      let r := slideUp h size den lteRatio fuel (bin + 1) here2 (sl + here) (lte + here2)
      ⟨r.bin, r.here, r.sl, r.lte, (bin + 1) :: r.reads⟩
    else ⟨bin, here, sl, lte, []⟩

/-- Branch 1 tie loop: `while (bin+1 < size && h[++bin] == 0) {}` —
stops at the first nonempty bin above, or at the last bin. -/
def scanZerosUp (h : List Nat) (size : Nat) : Nat → Nat → Nat × List Nat
  | 0, bin => (bin, [])
  | fuel + 1, bin =>
    if bin + 1 < size then
      if countAt h (bin + 1) ≠ 0 then (bin + 1, [bin + 1])
      else
        let r := scanZerosUp h size fuel (bin + 1)
        (r.1, (bin + 1) :: r.2)
    else (bin, [])

/-- Result of the slide-down loop. -/
structure DownRes where
  bin : Nat
  sl : Nat
  gte : Nat
  reads : List Nat
deriving Repr

/-- Branch 2 loop:
`while (bin > 0 && gte*den < gte_ratio) { here = h[--bin];
samples_lower -= here; gte += here; if (gte*den >= gte_ratio) break; }`.
`samples_lower -= here` cannot underflow while the `samples_lower` invariant
holds (it subtracts counts of bins below the current cursor). -/
def slideDown (h : List Nat) (den gteRatio : Nat) :
    Nat → Nat → Nat → Nat → DownRes
  | 0, bin, sl, gte => ⟨bin, sl, gte, []⟩
  | fuel + 1, bin, sl, gte =>
    if 0 < bin ∧ gte * den < gteRatio then
      let here := countAt h (bin - 1)
      let r := slideDown h den gteRatio fuel (bin - 1) (sl - here) (gte + here)
      ⟨r.bin, r.sl, r.gte, (bin - 1) :: r.reads⟩
    else ⟨bin, sl, gte, []⟩

/-- Branch 2 tie loop: `while (bin > 0 && h[--bin] == 0) {}` —
stops at the first nonempty bin below, or at bin 0. -/
def scanZerosDown (h : List Nat) : Nat → Nat → Nat × List Nat
  | 0, bin => (bin, [])
  | fuel + 1, bin =>
    if 0 < bin then
      if countAt h (bin - 1) ≠ 0 then (bin - 1, [bin - 1])
      else
        let r := scanZerosDown h fuel (bin - 1)
        (r.1, (bin - 1) :: r.2)
    else (bin, [])

/-- Result of the downward expansion loop of branch 3. -/
structure XDownRes where
  lower : Nat
  reads : List Nat
deriving Repr

/-- Branch 3 downward expansion:
`while (lower > 0) { lte -= h[lower]; if (lte*den < lte_ratio) break; --lower; }`. -/
def expandDown (h : List Nat) (den lteRatio : Nat) : Nat → Nat → Nat → XDownRes
  | 0, lower, _lte => ⟨lower, []⟩
  | fuel + 1, lower, lte =>
    if 0 < lower then
      let lte2 := lte - countAt h lower
      if lte2 * den < lteRatio then ⟨lower, [lower]⟩
      else
        let r := expandDown h den lteRatio fuel (lower - 1) lte2
        ⟨r.lower, lower :: r.reads⟩
    else ⟨lower, []⟩

/-- Result of the upward expansion loop of branch 3. -/
structure XUpRes where
  upper : Nat
  gte : Nat
  sl : Nat
  reads : List Nat
deriving Repr

/-- Branch 3 upward expansion:
`while (upper+1 < size) { gte -= h[upper]; if (gte*den < gte_ratio) break;
samples_lower += h[upper]; ++upper; }`. -/
def expandUp (h : List Nat) (size den gteRatio : Nat) : Nat → Nat → Nat → Nat → XUpRes
  | 0, upper, gte, sl => ⟨upper, gte, sl, []⟩
  | fuel + 1, upper, gte, sl =>
    if upper + 1 < size then
      let c := countAt h upper
      let gte2 := gte - c
      if gte2 * den < gteRatio then ⟨upper, gte2, sl, [upper]⟩
      else
        let r := expandUp h size den gteRatio fuel (upper + 1) gte2 (sl + c)
        ⟨r.upper, r.gte, r.sl, upper :: r.reads⟩
    else ⟨upper, gte, sl, []⟩

/-- The adjusted state together with the list of bin indices read.  Direct
transcription of `quantile_position::adjust` (= `histogram_tracked::quantile::adjust`);
`gte = population - samples_lower` cannot underflow while the `samples_lower`
invariant holds.  Every loop gets iteration budget `size`. -/
structure AdjustRes where
  q : QuantilePosition
  reads : List Nat
deriving Repr

def adjustR (h : List Nat) (population : Nat) (q : QuantilePosition) : AdjustRes :=
  let size := h.length
  let bin := q.upper
  let here := countAt h bin
  let gte := population - q.samples_lower
  let lte := here + q.samples_lower
  let lteRatio := population * q.num
  let gteRatio := population * (q.den - q.num)
  if lte * q.den < lteRatio then
    let u := slideUp h size q.den lteRatio size bin here q.samples_lower lte
    if u.lte * q.den = lteRatio then
      let z := scanZerosUp h size size u.bin
      ⟨{ q with
          lower := u.bin, upper := z.1, samples_lower := u.sl + u.here
          last_adjust := 1 },
        bin :: (u.reads ++ z.2)⟩
    else
      ⟨{ q with
          lower := u.bin, upper := u.bin, samples_lower := u.sl
          last_adjust := 1 },
        bin :: u.reads⟩
  else if gte * q.den < gteRatio then
    let d := slideDown h q.den gteRatio size bin q.samples_lower gte
    if d.gte * q.den = gteRatio then
      let z := scanZerosDown h size d.bin
      ⟨{ q with
          lower := z.1, upper := d.bin, samples_lower := d.sl
          last_adjust := -1 },
        bin :: (d.reads ++ z.2)⟩
    else
      ⟨{ q with
          lower := d.bin, upper := d.bin, samples_lower := d.sl
          last_adjust := -1 },
        bin :: d.reads⟩
  else
    let xd := expandDown h q.den lteRatio size bin lte
    let xu := expandUp h size q.den gteRatio size bin gte q.samples_lower
    ⟨{ q with
        lower := xd.lower, upper := xu.upper, samples_lower := xu.sl
        last_adjust := 0 },
      bin :: (xd.reads ++ xu.reads)⟩

/-- The adjusted state (the value `adjust` leaves in the quantile). -/
def adjust (h : List Nat) (population : Nat) (q : QuantilePosition) : QuantilePosition :=
  (adjustR h population q).q

/-! ## The defining property of the quantile range

For a consistent population (`pop = h.sum`), a positive population and a valid
fraction `0 < num < den`, the range the algorithms must produce is
characterised by least-element properties of the running sum. -/

/-- `b` is the least bin whose inclusive prefix weight reaches the quota. -/
def IsRefLower (h : List Nat) (num den b : Nat) : Prop :=
  h.sum * num ≤ sumBelow h (b + 1) * den ∧
  ∀ k, k < b → sumBelow h (k + 1) * den < h.sum * num

/-- `b` is the least bin whose inclusive prefix weight strictly exceeds the
quota. -/
def IsRefUpper (h : List Nat) (num den b : Nat) : Prop :=
  h.sum * num < sumBelow h (b + 1) * den ∧
  ∀ k, k < b → sumBelow h (k + 1) * den ≤ h.sum * num

/-! ## The tracker engine over bin indices

`edb::histogram_basic` and `edb::quantile_tracker` of
`include/histogram_quantiles.hpp`; the engine works directly on bin indices
(the spec's §6 architecture: the sample-to-index binning is the caller's).
`histogram_tracked::recalculate` and `histogram_tracked::add_quantiles` of
`quern/histogram_tracked.hpp`, which involve no samples, are included as
engine operations. -/

/-- `edb::histogram_basic`: counts plus the cached population (`size_t`).
The `insert_index < 0` half of the C++ range check is vacuous for the
unsigned index type. -/
structure HistogramBasic where
  counts : List Nat
  population : Nat
deriving DecidableEq, Repr

/-- `histogram_basic::insert`: reject out of range, else `++count; ++population`. -/
def HistogramBasic.insert (h : HistogramBasic) (i : Nat) : HistogramBasic :=
  if i < h.counts.length then
    { counts := h.counts.set i (countAt h.counts i + 1), population := h.population + 1 }
  else h

/-- `histogram_basic::remove`: reject out of range, else `--count; --population` —
unsigned decrements, wrapping when the count (or population) is zero. -/
def HistogramBasic.remove (h : HistogramBasic) (i : Nat) : HistogramBasic :=
  if i < h.counts.length then
    { counts := h.counts.set i (sub64 (countAt h.counts i) 1),
      population := sub64 h.population 1 }
  else h

/-- `histogram_basic::replace`: `insert(insert_index); remove(remove_index);`. -/
def HistogramBasic.replace (h : HistogramBasic) (i r : Nat) : HistogramBasic :=
  (h.insert i).remove r

/-- `edb::quantile_tracker`. -/
structure QuantileTracker where
  histogram : HistogramBasic
  quantiles : List QuantilePosition
deriving DecidableEq, Repr

/-- `quantile_tracker::insert`: update the histogram, then for every quantile
bump `samples_lower` when the index is below its `range.upper` and adjust. -/
def qtInsert (t : QuantileTracker) (i : Nat) : QuantileTracker :=
  let h := t.histogram.insert i
  { histogram := h
    quantiles := t.quantiles.map fun q =>
      adjust h.counts h.population
        (if i < q.upper then { q with samples_lower := q.samples_lower + 1 } else q) }

/-- `quantile_tracker::remove` (the `--q.samples_lower` is unsigned). -/
def qtRemove (t : QuantileTracker) (i : Nat) : QuantileTracker :=
  let h := t.histogram.remove i
  { histogram := h
    quantiles := t.quantiles.map fun q =>
      adjust h.counts h.population
        (if i < q.upper then { q with samples_lower := sub64 q.samples_lower 1 } else q) }

/-- `quantile_tracker::replace`: a no-op when the two indices coincide;
otherwise both histogram cells are updated and every quantile receives the
combined delta `(insert_index < upper) - (remove_index < upper)` (unsigned
arithmetic) before its adjustment.  (The skip optimization is present only in
`quern::histogram_tracked::replace`; here it is commented out in the source.) -/
def qtReplace (t : QuantileTracker) (i r : Nat) : QuantileTracker :=
  if i ≠ r then
    let h := t.histogram.replace i r
    { histogram := h
      quantiles := t.quantiles.map fun q =>
        let sl2 := sub64 (q.samples_lower + (if i < q.upper then 1 else 0))
          (if r < q.upper then 1 else 0)
        adjust h.counts h.population { q with samples_lower := sl2 } }
  else t

/-- `histogram_tracked::quantile::recalculate`, after its validation (modelled
separately in `recalculateE`): cap the hint, reset the range to it, recompute
`samples_lower` by direct summation below the hint, adjust. -/
def recalcCore (h : List Nat) (population hint : Nat) (q : QuantilePosition) :
    QuantilePosition :=
  let size := h.length
  let hint2 := if size ≤ hint then size - (if 0 < size then 1 else 0) else hint
  adjust h population
    { q with lower := hint2, upper := hint2, samples_lower := sumBelow h hint2 }

/-- The validation at the head of `histogram_tracked::quantile::recalculate`
(`num`/`den` are signed integers there); `Except.error` models the thrown
`std::logic_error`, raised before the state or the histogram is touched. -/
def quernQuantileCheck (num den : Int) : Except Unit Unit :=
  if den ≤ 0 then .error ()
  else if num ≤ 0 then .error ()
  else if den ≤ num then .error ()
  else .ok ()

/-- The validation in the `edb::quantile_tracker` constructor: it rejects
`den == 0`, `num == 0` and `num > den` (so, unlike the quern variant, it
accepts `num == den`). -/
def edbQuantileCheck (num den : Nat) : Except Unit Unit :=
  if den = 0 then .error ()
  else if num = 0 then .error ()
  else if den < num then .error ()
  else .ok ()

/-- `histogram_tracked::quantile::recalculate` with its validation. -/
def recalculateE (h : List Nat) (population hint : Nat) (q : QuantilePosition) :
    Except Unit QuantilePosition :=
  match quernQuantileCheck (q.num : Int) (q.den : Int) with
  | .error _ => .error ()
  | .ok _ => .ok (recalcCore h population hint q)

/-- `histogram_tracked::recalculate`: refresh the cached population from the
histogram and recalculate every quantile (hint 0).  The per-quantile
validation cannot fire for quantiles that were validly registered. -/
def qtRecalculate (t : QuantileTracker) : QuantileTracker :=
  let pop := t.histogram.counts.sum
  let qs := t.quantiles.map fun q => recalcCore t.histogram.counts pop 0 q
  { histogram := { t.histogram with population := pop }, quantiles := qs }

/-- `histogram_tracked::add_quantiles` in its non-throwing execution: append
each new quantile (zero-initialised range and counter) and recalculate it
against the cached population. -/
def qtAddQuantiles (t : QuantileTracker) (qs : List (Nat × Nat)) : QuantileTracker :=
  let newqs := qs.map fun nd =>
    recalcCore t.histogram.counts t.histogram.population 0
      { num := nd.1, den := nd.2, lower := 0, upper := 0, samples_lower := 0 }
  { t with quantiles := t.quantiles ++ newqs }

/-- `histogram_tracked::add_quantiles` with the validation inside
`recalculate` modelled: each fraction is appended and then recalculated; the
first invalid fraction stops the loop (the C++ exception propagates), leaving
the invalid entry appended raw and, in every path, the histogram untouched.
The boolean records whether all registrations succeeded. -/
def qtAddQuantilesE (t : QuantileTracker) : List (Nat × Nat) → QuantileTracker × Bool
  | [] => (t, true)
  | nd :: rest =>
    let raw : QuantilePosition :=
      { num := nd.1, den := nd.2, lower := 0, upper := 0, samples_lower := 0 }
    match recalculateE t.histogram.counts t.histogram.population 0 raw with
    | .error _ => ({ t with quantiles := t.quantiles ++ [raw] }, false)
    | .ok q2 => qtAddQuantilesE { t with quantiles := t.quantiles ++ [q2] } rest

/-- One engine operation. -/
inductive Op where
  | insert (i : Nat)
  | remove (i : Nat)
  | replace (i r : Nat)
  | recalc
  | addQuantiles (qs : List (Nat × Nat))
deriving DecidableEq, Repr

def applyOp (t : QuantileTracker) : Op → QuantileTracker
  | .insert i => qtInsert t i
  | .remove i => qtRemove t i
  | .replace i r => qtReplace t i r
  | .recalc => qtRecalculate t
  | .addQuantiles qs => qtAddQuantiles t qs

def applyOps (t : QuantileTracker) : List Op → QuantileTracker
  | [] => t
  | o :: os => applyOps (applyOp t o) os

/-! ## The maintained invariant -/

/-- A tracked quantile in its converged state: a valid fraction, the range the
reference scan yields, and the exact `samples_lower` cache. -/
def Converged (h : List Nat) (q : QuantilePosition) : Prop :=
  0 < q.num ∧ q.num < q.den ∧
  (⟨q.lower, q.upper⟩ : QuantileRange) = find_quantile h h.sum q.num q.den ∧
  q.upper < h.length ∧
  q.samples_lower = sumBelow h q.upper

instance (h : List Nat) (q : QuantilePosition) : Decidable (Converged h q) := by
  unfold Converged; infer_instance

/-- The tracker's global invariant: consistent, positive, representable
population, and every quantile converged. -/
def ValidTracker (t : QuantileTracker) : Prop :=
  t.histogram.population = t.histogram.counts.sum ∧
  0 < t.histogram.population ∧
  t.histogram.population < W ∧
  ∀ q ∈ t.quantiles, Converged t.histogram.counts q

instance (t : QuantileTracker) : Decidable (ValidTracker t) := by
  unfold ValidTracker; infer_instance

/-- Admissibility of one operation: inserts stay below the counter width,
in-range removes only remove samples that are present and never empty the
histogram (the spec's non-empty-histogram precondition), and registered
fractions are valid. -/
def OpOk (t : QuantileTracker) : Op → Prop
  | .insert _ => t.histogram.population + 1 < W
  | .remove i => i < t.histogram.counts.length →
      1 ≤ countAt t.histogram.counts i ∧ 2 ≤ t.histogram.population
  | .replace i r => i ≠ r →
      t.histogram.population + 1 < W ∧
      (r < t.histogram.counts.length →
        1 ≤ countAt (t.histogram.insert i).counts r ∧
        (i < t.histogram.counts.length ∨ 2 ≤ t.histogram.population))
  | .recalc => True
  | .addQuantiles qs => ∀ nd ∈ qs, 0 < nd.1 ∧ nd.1 < nd.2

instance (t : QuantileTracker) (o : Op) : Decidable (OpOk t o) := by
  cases o <;> simp only [OpOk] <;> infer_instance

def OpsOk (t : QuantileTracker) : List Op → Prop
  | [] => True
  | o :: os => OpOk t o ∧ OpsOk (applyOp t o) os

instance instDecOpsOk : (ops : List Op) → (t : QuantileTracker) → Decidable (OpsOk t ops)
  | [], _ => .isTrue trivial
  | o :: os, t =>
    have : Decidable (OpsOk (applyOp t o) os) := instDecOpsOk os (applyOp t o)
    inferInstanceAs (Decidable (OpOk t o ∧ OpsOk (applyOp t o) os))

/-- A valid tracker with one tracked median over two singleton bins. -/
def T0 : QuantileTracker := ⟨⟨[1, 1], 2⟩, [⟨1, 2, 0, 1, 1, 0⟩]⟩

/-- An operation sequence exercising all five engine operations. -/
def opsA : List Op :=
  [Op.insert 0, Op.replace 1 0, Op.remove 1, Op.recalc, Op.addQuantiles [(1, 4)]]

def preA : List Op := [Op.insert 0, Op.replace 1 0]

def postA : List Op := [Op.remove 1, Op.recalc, Op.addQuantiles [(1, 4)]]

/-- The median's state after `preA`. -/
def qA : QuantilePosition := ⟨1, 2, 1, 1, 1, 1⟩

/-- The 1/4 quantile registered by the last operation of `opsA`. -/
def qB : QuantilePosition := ⟨1, 4, 0, 0, 0, 0⟩

def Tc4 : QuantileTracker := ⟨⟨[1, 0], 1⟩, [⟨1, 2, 0, 0, 0, 0⟩]⟩

def Tc10 : QuantileTracker := ⟨⟨[0, 0, 1], 1⟩, [⟨1, 2, 2, 2, 0, 0⟩]⟩

/-! ## The quern sample-level engine

`quern::histogram_tracked` of `quern/histogram_tracked.hpp` over an integer
binning (`quern::binning`, the non-clamping variant of `binning.hpp`): bin
`j` holds samples of value `bmin + j`, `index_for` yields `BIN_REJECT`
(modelled `none`) outside the binning range.  `grid::at(coord, oor)` returns
a reference to the caller's `oor` variable on a miss (so the mutation lands
in the flag, which is how `insert`/`remove` detect rejection), and
`grid::at_index(i, oor)` edits the cell only when `0 ≤ i < size`. -/

structure TrackedHistogram where
  bmin : Int
  counts : List Nat
  population : Nat
  quantiles : List QuantilePosition
deriving DecidableEq, Repr

/-- `bin_table::index_for` (binning): `reject(v) ? BIN_REJECT : v - bmin`. -/
def qIndexFor (T : TrackedHistogram) (s : Int) : Option Nat :=
  if T.bmin ≤ s ∧ s < T.bmin + T.counts.length then some (s - T.bmin).toNat
  else none

/-- `histogram_tracked::insert`: bump the binned cell and the population, then
for each quantile compare the RAW SAMPLE with the bin-index `upper` (the
source compares `new_sample < q.index_range.upper` directly) and adjust; a
rejected sample only stamps `last_adjust = -2`. -/
def tqInsert (T : TrackedHistogram) (s : Int) : TrackedHistogram :=
  match qIndexFor T s with
  | some j =>
    let counts2 := T.counts.set j (countAt T.counts j + 1)
    let pop2 := T.population + 1
    { T with
      counts := counts2
      population := pop2
      quantiles := T.quantiles.map fun q =>
        adjust counts2 pop2
          (if s < (q.upper : Int) then
            { q with samples_lower := q.samples_lower + 1 }
          else q) }
  | none =>
    { T with quantiles := T.quantiles.map fun q => { q with last_adjust := -2 } }

/-- `histogram_tracked::remove` (unsigned decrements; same raw-sample
comparison as `insert`). -/
def tqRemove (T : TrackedHistogram) (s : Int) : TrackedHistogram :=
  match qIndexFor T s with
  | some j =>
    let counts2 := T.counts.set j (sub64 (countAt T.counts j) 1)
    let pop2 := sub64 T.population 1
    { T with
      counts := counts2
      population := pop2
      quantiles := T.quantiles.map fun q =>
        adjust counts2 pop2
          (if s < (q.upper : Int) then
            { q with samples_lower := sub64 q.samples_lower 1 }
          else q) }
  | none =>
    { T with quantiles := T.quantiles.map fun q => { q with last_adjust := -3 } }

/-- `grid::at_index(i, dummy) += 1` with a raw value as the index. -/
def tqCellAdd (counts : List Nat) (s : Int) : List Nat :=
  if 0 ≤ s ∧ s.toNat < counts.length then
    counts.set s.toNat (countAt counts s.toNat + 1)
  else counts

/-- `grid::at_index(i, dummy) -= 1` with a raw value as the index. -/
def tqCellSub (counts : List Nat) (s : Int) : List Nat :=
  if 0 ≤ s ∧ s.toNat < counts.length then
    counts.set s.toNat (sub64 (countAt counts s.toNat) 1)
  else counts

/-- `histogram_tracked::replace`: fall back to `remove`/`insert` when either
sample is rejected; when the two bin indices differ, edit the two histogram
cells via `at_index` with the RAW SAMPLES as indices (the source passes
`new_sample`/`old_sample`, not the computed indices), leave the population
alone, and for each quantile skip when both indices are strictly outside the
range on the same side, otherwise apply the combined `samples_lower` delta
computed from raw-sample comparisons and adjust. -/
def tqReplace (T : TrackedHistogram) (new_s old_s : Int) : TrackedHistogram :=
  match qIndexFor T new_s with
  | none => tqRemove T old_s
  | some newIndex =>
    match qIndexFor T old_s with
    | none => tqInsert T new_s
    | some oldIndex =>
      if newIndex ≠ oldIndex then
        let counts2 := tqCellSub (tqCellAdd T.counts new_s) old_s
        { T with
          counts := counts2
          quantiles := T.quantiles.map fun q =>
            let q9 := { q with last_adjust := 9 }
            if q.upper < newIndex ∧ q.upper < oldIndex then q9
            else if newIndex < q.lower ∧ oldIndex < q.lower then q9
            else
              let sl2 := sub64
                (q.samples_lower + (if new_s < (q.upper : Int) then 1 else 0))
                (if old_s < (q.upper : Int) then 1 else 0)
              adjust counts2 T.population { q9 with samples_lower := sl2 } }
      else T

def Tc6 : TrackedHistogram := ⟨1, [1, 1, 1], 3, []⟩

def Tc7 : TrackedHistogram := ⟨-2, [1, 1, 1, 1, 1, 1], 6, [⟨1, 2, 2, 3, 3, 0⟩]⟩

/-! ## Properties -/

/-! ## Basic facts about `sumBelow`, `countAt` and `sub64` -/

lemma sumBelow_zero (h : List Nat) : sumBelow h 0 = 0 := rfl

lemma sumBelow_succ (h : List Nat) (b : Nat) :
    sumBelow h (b + 1) = sumBelow h b + countAt h b := by
  unfold sumBelow countAt
  rw [List.take_succ, List.sum_append]
  cases hb : h[b]? <;> simp [List.getD, hb]

lemma sumBelow_le_sum (h : List Nat) (b : Nat) : sumBelow h b ≤ h.sum := by
  unfold sumBelow
  conv_rhs => rw [← List.take_append_drop b h]
  rw [List.sum_append]; omega

lemma sumBelow_of_length_le (h : List Nat) {b : Nat} (hb : h.length ≤ b) :
    sumBelow h b = h.sum := by
  unfold sumBelow; rw [List.take_of_length_le hb]

lemma sumBelow_mono (h : List Nat) {b b' : Nat} (hbb : b ≤ b') :
    sumBelow h b ≤ sumBelow h b' := by
  induction b', hbb using Nat.le_induction with
  | base => exact le_rfl
  | succ k hk ih => rw [sumBelow_succ]; omega

lemma countAt_le_sum (h : List Nat) (i : Nat) : countAt h i ≤ h.sum := by
  unfold countAt
  cases hi : h[i]? with
  | none => simp [List.getD, hi]
  | some v =>
    have hm : v ∈ h := by
      obtain ⟨hlt, rfl⟩ := List.getElem?_eq_some.mp hi
      exact List.getElem_mem hlt
    have := List.single_le_sum (l := h) (fun x _ => Nat.zero_le x) v hm
    simp [List.getD, hi]; omega

lemma sumBelow_congr_of_zeros (h : List Nat) {a b : Nat} (hab : a ≤ b)
    (hz : ∀ j, a ≤ j → j < b → countAt h j = 0) :
    sumBelow h b = sumBelow h a := by
  induction b, hab using Nat.le_induction with
  | base => rfl
  | succ k hk ih =>
    rw [sumBelow_succ, hz k hk (by omega), ih fun j hj hj2 => hz j hj (by omega)]
    omega

lemma length_pos_of_sum_pos {h : List Nat} (hs : 0 < h.sum) : 0 < h.length := by
  rcases h with _ | _ <;> simp_all

lemma sub64_exact {a b : Nat} (hba : b ≤ a) (ha : a < W) : sub64 a b = a - b := by
  unfold sub64
  have h1 : W + a - b = W + (a - b) := by omega
  rw [h1, Nat.add_mod_left, Nat.mod_eq_of_lt (by omega)]

/-- Translation of the `gte`-side test of `adjust`:
for `samples_lower ≤ population` and `num ≤ den`,
`(population - samples_lower) * den < population * (den - num)` says exactly
that the samples strictly below the cursor exceed the quota. -/
lemma gteCond_iff {pop s n d : Nat} (hs : s ≤ pop) (hnd : n ≤ d) :
    (pop - s) * d < pop * (d - n) ↔ pop * n < s * d := by
  obtain ⟨a, rfl⟩ := Nat.exists_eq_add_of_le hs
  obtain ⟨e, rfl⟩ := Nat.exists_eq_add_of_le hnd
  simp only [Nat.add_sub_cancel_left, Nat.add_mul, Nat.mul_add]
  constructor <;> intro H <;> nlinarith

lemma IsRefLower_unique {h : List Nat} {num den b b' : Nat}
    (hb : IsRefLower h num den b) (hb' : IsRefLower h num den b') : b = b' := by
  rcases lt_trichotomy b b' with hlt | heq | hgt
  · exact absurd hb.1 (not_le.mpr (hb'.2 b hlt))
  · exact heq
  · exact absurd hb'.1 (not_le.mpr (hb.2 b' hgt))

lemma IsRefUpper_unique {h : List Nat} {num den b b' : Nat}
    (hb : IsRefUpper h num den b) (hb' : IsRefUpper h num den b') : b = b' := by
  rcases lt_trichotomy b b' with hlt | heq | hgt
  · exact absurd (hb'.2 b hlt) (not_le.mpr hb.1)
  · exact heq
  · exact absurd (hb.2 b' hgt) (not_le.mpr hb'.1)

lemma IsRefLower_le_IsRefUpper {h : List Nat} {num den b b' : Nat}
    (hb : IsRefLower h num den b) (hb' : IsRefUpper h num den b') : b ≤ b' := by
  by_contra hgt
  exact absurd (hb.2 b' (by omega)) (not_lt.mpr (le_of_lt hb'.1))

/-! ## Characterisation of the reference scan -/

lemma fqLoop_spec (h : List Nat) (den quota : Nat) :
    ∀ fuel index leq, index < h.length → h.length - index ≤ fuel + 1 →
      leq = sumBelow h (index + 1) * den →
      index ≤ (fqLoop h h.length den quota fuel index leq).1 ∧
      (fqLoop h h.length den quota fuel index leq).1 < h.length ∧
      (fqLoop h h.length den quota fuel index leq).2 =
        sumBelow h ((fqLoop h h.length den quota fuel index leq).1 + 1) * den ∧
      (∀ k, index ≤ k → k < (fqLoop h h.length den quota fuel index leq).1 →
        sumBelow h (k + 1) * den < quota) ∧
      (quota ≤ (fqLoop h h.length den quota fuel index leq).2 ∨
        (fqLoop h h.length den quota fuel index leq).1 + 1 = h.length) := by
  intro fuel
  induction fuel with
  | zero =>
    intro index leq hidx hfuel hleq
    simp only [fqLoop]
    exact ⟨le_rfl, hidx, hleq, fun k hk hk2 => absurd hk2 (by omega), Or.inr (by omega)⟩
  | succ f ih =>
    intro index leq hidx hfuel hleq
    simp only [fqLoop]
    by_cases hc : index + 1 < h.length ∧ leq < quota
    · rw [if_pos hc]
      have hinv : leq + countAt h (index + 1) * den = sumBelow h (index + 1 + 1) * den := by
        rw [sumBelow_succ h (index + 1), Nat.add_mul, hleq]
      obtain ⟨h1, h2, h3, h4, h5⟩ := ih (index + 1) (leq + countAt h (index + 1) * den)
        hc.1 (by omega) hinv
      refine ⟨by omega, h2, h3, ?_, h5⟩
      intro k hk hk2
      rcases Nat.eq_or_lt_of_le hk with rfl | hlt
      · rw [← hleq]; exact hc.2
      · exact h4 k (by omega) hk2
    · rw [if_neg hc]
      refine ⟨le_rfl, hidx, hleq, fun k hk hk2 => absurd hk2 (by omega), ?_⟩
      rcases Classical.em (index + 1 < h.length) with hA | hA
      · exact Or.inl (by have := fun hB => hc ⟨hA, hB⟩; omega)
      · exact Or.inr (by omega)

lemma fqScanZeros_spec (h : List Nat) :
    ∀ fuel bin, bin < h.length → h.length - bin ≤ fuel + 1 →
      bin ≤ fqScanZeros h h.length fuel bin ∧
      fqScanZeros h h.length fuel bin < h.length ∧
      (∀ j, bin < j → j < fqScanZeros h h.length fuel bin → countAt h j = 0) ∧
      ((bin < fqScanZeros h h.length fuel bin ∧
          countAt h (fqScanZeros h h.length fuel bin) ≠ 0) ∨
        fqScanZeros h h.length fuel bin + 1 = h.length) := by
  intro fuel
  induction fuel with
  | zero =>
    intro bin hbin hfuel
    simp only [fqScanZeros]
    exact ⟨le_rfl, hbin, fun j hj hj2 => absurd hj2 (by omega), Or.inr (by omega)⟩
  | succ f ih =>
    intro bin hbin hfuel
    simp only [fqScanZeros]
    by_cases hA : bin + 1 < h.length
    · rw [if_pos hA]
      by_cases hB : countAt h (bin + 1) ≠ 0
      · rw [if_pos hB]
        exact ⟨by omega, hA, fun j hj hj2 => absurd hj2 (by omega), Or.inl ⟨by omega, hB⟩⟩
      · rw [if_neg hB]
        obtain ⟨h1, h2, h3, h4⟩ := ih (bin + 1) hA (by omega)
        refine ⟨by omega, h2, ?_, ?_⟩
        · intro j hj hj2
          rcases Nat.eq_or_lt_of_le (Nat.succ_le_of_lt hj) with rfl | hlt
          · exact not_not.mp hB
          · exact h3 j hlt hj2
        · rcases h4 with ⟨hlt, hne⟩ | hlen
          · exact Or.inl ⟨by omega, hne⟩
          · exact Or.inr hlen
    · rw [if_neg hA]
      exact ⟨le_rfl, hbin, fun j hj hj2 => absurd hj2 (by omega), Or.inr (by omega)⟩

/-- The tie scan starting at a bin whose inclusive prefix weight equals the
quota lands exactly on the least bin whose inclusive prefix weight strictly
exceeds it. -/
lemma fqScanZeros_IsRefUpper (h : List Nat) {num den bin : Nat}
    (hpop : 0 < h.sum) (hnd : num < den) (hbin : bin < h.length)
    (htie : sumBelow h (bin + 1) * den = h.sum * num) :
    IsRefUpper h num den (fqScanZeros h h.length h.length bin) := by
  obtain ⟨h1, h2, h3, h4⟩ := fqScanZeros_spec h h.length bin hbin (by omega)
  constructor
  · rcases h4 with ⟨hlt, hne⟩ | hlen
    · have hz := sumBelow_succ h (fqScanZeros h h.length h.length bin)
      have hzz : sumBelow h (fqScanZeros h h.length h.length bin) = sumBelow h (bin + 1) :=
        sumBelow_congr_of_zeros h (by omega) (fun j hj hj2 => h3 j (by omega) hj2)
      have hcz : 0 < countAt h (fqScanZeros h h.length h.length bin) := Nat.pos_of_ne_zero hne
      rw [hz, hzz]
      nlinarith
    · have hfull : sumBelow h (fqScanZeros h h.length h.length bin + 1) = h.sum :=
        sumBelow_of_length_le h (by omega)
      rw [hfull]
      nlinarith
  · intro k hk
    rcases le_or_lt (k + 1) (bin + 1) with hkb | hkb
    · exact le_trans (Nat.mul_le_mul_right den (sumBelow_mono h hkb)) (le_of_eq htie)
    · have heq : sumBelow h (k + 1) = sumBelow h (bin + 1) :=
        sumBelow_congr_of_zeros h (by omega) (fun j hj hj2 => h3 j (by omega) (by omega))
      rw [heq, htie]

/-- The reference scan, run with the consistent population, produces exactly
the characterised range. -/
lemma find_quantile_spec (h : List Nat) (num den : Nat)
    (hnum : 0 < num) (hnd : num < den) (hpop : 0 < h.sum) :
    IsRefLower h num den (find_quantile h h.sum num den).lower ∧
    IsRefUpper h num den (find_quantile h h.sum num den).upper ∧
    (find_quantile h h.sum num den).upper < h.length := by
  have hlen : 0 < h.length := length_pos_of_sum_pos hpop
  have hinit : countAt h 0 * den = sumBelow h (0 + 1) * den := by
    rw [sumBelow_succ, sumBelow_zero, Nat.zero_add]
  obtain ⟨h1, h2, h3, h4, h5⟩ :=
    fqLoop_spec h den (h.sum * num) h.length 0 (countAt h 0 * den) hlen (by omega) hinit
  have hlow : (find_quantile h h.sum num den).lower =
      (fqLoop h h.length den (h.sum * num) h.length 0 (countAt h 0 * den)).1 := rfl
  have hup : (find_quantile h h.sum num den).upper =
      (if (fqLoop h h.length den (h.sum * num) h.length 0 (countAt h 0 * den)).2 = h.sum * num
        then fqScanZeros h h.length h.length
          (fqLoop h h.length den (h.sum * num) h.length 0 (countAt h 0 * den)).1
        else (fqLoop h h.length den (h.sum * num) h.length 0 (countAt h 0 * den)).1) := rfl
  have hle : h.sum * num ≤
      (fqLoop h h.length den (h.sum * num) h.length 0 (countAt h 0 * den)).2 := by
    rcases h5 with hq | hcap
    · exact hq
    · rw [h3, sumBelow_of_length_le h (by omega)]
      nlinarith
  have hLower : IsRefLower h num den
      (fqLoop h h.length den (h.sum * num) h.length 0 (countAt h 0 * den)).1 :=
    ⟨by rw [← h3]; exact hle, fun k hk => h4 k (Nat.zero_le k) hk⟩
  rw [hlow, hup]
  by_cases htie : (fqLoop h h.length den (h.sum * num) h.length 0 (countAt h 0 * den)).2 =
      h.sum * num
  · rw [if_pos htie]
    have hUp : IsRefUpper h num den (fqScanZeros h h.length h.length
        (fqLoop h h.length den (h.sum * num) h.length 0 (countAt h 0 * den)).1) :=
      fqScanZeros_IsRefUpper h hpop hnd h2 (by rw [← h3]; exact htie)
    obtain ⟨z1, z2, z3, z4⟩ := fqScanZeros_spec h h.length
      (fqLoop h h.length den (h.sum * num) h.length 0 (countAt h 0 * den)).1 h2 (by omega)
    exact ⟨hLower, hUp, z2⟩
  · rw [if_neg htie]
    refine ⟨hLower, ⟨?_, fun k hk => le_of_lt (h4 k (Nat.zero_le k) hk)⟩, h2⟩
    rw [← h3]
    omega

/-! ## Characterisation of the loops of `adjust` -/

lemma slideUp_spec (h : List Nat) (den lteRatio : Nat) :
    ∀ fuel bin here sl lte, bin < h.length → h.length - bin ≤ fuel + 1 →
      here = countAt h bin → sl = sumBelow h bin → lte = sumBelow h (bin + 1) →
      bin ≤ (slideUp h h.length den lteRatio fuel bin here sl lte).bin ∧
      (slideUp h h.length den lteRatio fuel bin here sl lte).bin < h.length ∧
      (slideUp h h.length den lteRatio fuel bin here sl lte).here =
        countAt h (slideUp h h.length den lteRatio fuel bin here sl lte).bin ∧
      (slideUp h h.length den lteRatio fuel bin here sl lte).sl =
        sumBelow h (slideUp h h.length den lteRatio fuel bin here sl lte).bin ∧
      (slideUp h h.length den lteRatio fuel bin here sl lte).lte =
        sumBelow h ((slideUp h h.length den lteRatio fuel bin here sl lte).bin + 1) ∧
      (∀ k, bin ≤ k → k < (slideUp h h.length den lteRatio fuel bin here sl lte).bin →
        sumBelow h (k + 1) * den < lteRatio) ∧
      (lteRatio ≤ (slideUp h h.length den lteRatio fuel bin here sl lte).lte * den ∨
        (slideUp h h.length den lteRatio fuel bin here sl lte).bin + 1 = h.length) ∧
      (∀ x ∈ (slideUp h h.length den lteRatio fuel bin here sl lte).reads,
        bin < x ∧ x < h.length) ∧
      (slideUp h h.length den lteRatio fuel bin here sl lte).reads.length =
        (slideUp h h.length den lteRatio fuel bin here sl lte).bin - bin := by
  intro fuel
  induction fuel with
  | zero =>
    intro bin here sl lte hbin hfuel hh hs hl
    simp only [slideUp]
    exact ⟨le_rfl, hbin, hh, hs, hl, fun k hk hk2 => absurd hk2 (by omega),
      Or.inr (by omega), fun x hx => absurd hx (List.not_mem_nil x), by simp⟩
  | succ f ih =>
    intro bin here sl lte hbin hfuel hh hs hl
    simp only [slideUp]
    by_cases hc : bin + 1 < h.length ∧ lte * den < lteRatio
    · rw [if_pos hc]
      dsimp only
      have hs2 : sl + here = sumBelow h (bin + 1) := by rw [sumBelow_succ, hs, hh]
      have hl2 : lte + countAt h (bin + 1) = sumBelow h (bin + 1 + 1) := by
        rw [sumBelow_succ h (bin + 1), hl]
      obtain ⟨i1, i2, i3, i4, i5, i6, i7, i8, i9⟩ :=
        ih (bin + 1) (countAt h (bin + 1)) (sl + here) (lte + countAt h (bin + 1))
          hc.1 (by omega) rfl hs2 hl2
      refine ⟨by omega, i2, i3, i4, i5, ?_, i7, ?_, ?_⟩
      · intro k hk hk2
        rcases Nat.eq_or_lt_of_le hk with rfl | hlt
        · rw [← hl]; exact hc.2
        · exact i6 k (by omega) hk2
      · intro x hx
        rcases List.mem_cons.mp hx with rfl | hx2
        · exact ⟨by omega, hc.1⟩
        · have := i8 x hx2; omega
      · simp only [List.length_cons, i9]; omega
    · rw [if_neg hc]
      dsimp only
      refine ⟨le_rfl, hbin, hh, hs, hl, fun k hk hk2 => absurd hk2 (by omega), ?_,
        fun x hx => absurd hx (List.not_mem_nil x), by simp⟩
      rcases Classical.em (bin + 1 < h.length) with hA | hA
      · exact Or.inl (by have := fun hB => hc ⟨hA, hB⟩; omega)
      · exact Or.inr (by omega)

lemma slideDown_spec (h : List Nat) (den gteRatio pop : Nat) :
    ∀ fuel bin sl gte, bin ≤ fuel → sumBelow h bin ≤ pop →
      sl = sumBelow h bin → gte = pop - sumBelow h bin →
      (slideDown h den gteRatio fuel bin sl gte).bin ≤ bin ∧
      (slideDown h den gteRatio fuel bin sl gte).sl =
        sumBelow h (slideDown h den gteRatio fuel bin sl gte).bin ∧
      (slideDown h den gteRatio fuel bin sl gte).gte =
        pop - sumBelow h (slideDown h den gteRatio fuel bin sl gte).bin ∧
      (∀ k, (slideDown h den gteRatio fuel bin sl gte).bin < k → k ≤ bin →
        (pop - sumBelow h k) * den < gteRatio) ∧
      (gteRatio ≤ (slideDown h den gteRatio fuel bin sl gte).gte * den ∨
        (slideDown h den gteRatio fuel bin sl gte).bin = 0) ∧
      (∀ x ∈ (slideDown h den gteRatio fuel bin sl gte).reads, x < bin) ∧
      (slideDown h den gteRatio fuel bin sl gte).reads.length =
        bin - (slideDown h den gteRatio fuel bin sl gte).bin := by
  intro fuel
  induction fuel with
  | zero =>
    intro bin sl gte hfuel hble hs hg
    simp only [slideDown]
    have hbz : bin = 0 := by omega
    exact ⟨le_rfl, hs, hg, fun k hk hk2 => by omega, Or.inr hbz,
      fun x hx => absurd hx (List.not_mem_nil x), by simp⟩
  | succ f ih =>
    intro bin sl gte hfuel hble hs hg
    simp only [slideDown]
    by_cases hc : 0 < bin ∧ gte * den < gteRatio
    · rw [if_pos hc]
      dsimp only
      have hsplit : sumBelow h bin = sumBelow h (bin - 1) + countAt h (bin - 1) := by
        have := sumBelow_succ h (bin - 1)
        have hb1 : bin - 1 + 1 = bin := by omega
        rw [hb1] at this
        exact this
      have hs2 : sl - countAt h (bin - 1) = sumBelow h (bin - 1) := by omega
      have hg2 : gte + countAt h (bin - 1) = pop - sumBelow h (bin - 1) := by omega
      obtain ⟨i1, i2, i3, i4, i5, i6, i7⟩ :=
        ih (bin - 1) (sl - countAt h (bin - 1)) (gte + countAt h (bin - 1))
          (by omega) (by omega) hs2 hg2
      refine ⟨by omega, i2, i3, ?_, i5, ?_, ?_⟩
      · intro k hk hk2
        rcases Nat.eq_or_lt_of_le hk2 with rfl | hlt
        · rw [← hs] at hsplit
          have : gte = pop - sumBelow h k := hg
          rw [← this]; exact hc.2
        · exact i4 k hk (by omega)
      · intro x hx
        rcases List.mem_cons.mp hx with rfl | hx2
        · omega
        · have := i6 x hx2; omega
      · simp only [List.length_cons, i7]; omega
    · rw [if_neg hc]
      dsimp only
      refine ⟨le_rfl, hs, hg, fun k hk hk2 => by omega, ?_,
        fun x hx => absurd hx (List.not_mem_nil x), by simp⟩
      rcases Classical.em (0 < bin) with hA | hA
      · exact Or.inl (by have := fun hB => hc ⟨hA, hB⟩; omega)
      · exact Or.inr (by omega)

/-- The instrumented upward tie scan computes the same final bin as the
reference scan's tie loop. -/
lemma scanZerosUp_fst (h : List Nat) :
    ∀ fuel bin, (scanZerosUp h h.length fuel bin).1 = fqScanZeros h h.length fuel bin := by
  intro fuel
  induction fuel with
  | zero => intro bin; simp [scanZerosUp, fqScanZeros]
  | succ f ih =>
    intro bin
    simp only [scanZerosUp, fqScanZeros]
    by_cases hA : bin + 1 < h.length
    · rw [if_pos hA, if_pos hA]
      by_cases hB : countAt h (bin + 1) ≠ 0
      · rw [if_pos hB, if_pos hB]
      · rw [if_neg hB, if_neg hB]; exact ih (bin + 1)
    · rw [if_neg hA, if_neg hA]

lemma scanZerosUp_le (h : List Nat) :
    ∀ fuel bin, bin ≤ (scanZerosUp h h.length fuel bin).1 := by
  intro fuel
  induction fuel with
  | zero => intro bin; simp [scanZerosUp]
  | succ f ih =>
    intro bin
    simp only [scanZerosUp]
    by_cases hA : bin + 1 < h.length
    · rw [if_pos hA]
      by_cases hB : countAt h (bin + 1) ≠ 0
      · rw [if_pos hB]; omega
      · rw [if_neg hB]; have := ih (bin + 1); dsimp only; omega
    · rw [if_neg hA]

lemma scanZerosUp_reads (h : List Nat) :
    ∀ fuel bin, (∀ x ∈ (scanZerosUp h h.length fuel bin).2, bin < x ∧ x < h.length) ∧
      (scanZerosUp h h.length fuel bin).2.length = (scanZerosUp h h.length fuel bin).1 - bin := by
  intro fuel
  induction fuel with
  | zero => intro bin; simp [scanZerosUp]
  | succ f ih =>
    intro bin
    simp only [scanZerosUp]
    by_cases hA : bin + 1 < h.length
    · rw [if_pos hA]
      by_cases hB : countAt h (bin + 1) ≠ 0
      · rw [if_pos hB]
        refine ⟨fun x hx => ?_, by simp⟩
        rcases List.mem_singleton.mp hx with rfl
        exact ⟨by omega, hA⟩
      · rw [if_neg hB]
        obtain ⟨i1, i2⟩ := ih (bin + 1)
        have hle := scanZerosUp_le h f (bin + 1)
        refine ⟨fun x hx => ?_, ?_⟩
        · rcases List.mem_cons.mp hx with rfl | hx2
          · exact ⟨by omega, hA⟩
          · have := i1 x hx2; omega
        · simp only [List.length_cons, i2]; omega
    · rw [if_neg hA]; simp

lemma scanZerosDown_spec (h : List Nat) :
    ∀ fuel bin, bin ≤ fuel →
      (scanZerosDown h fuel bin).1 ≤ bin ∧
      (∀ j, (scanZerosDown h fuel bin).1 < j → j < bin → countAt h j = 0) ∧
      (((scanZerosDown h fuel bin).1 < bin ∧
          countAt h (scanZerosDown h fuel bin).1 ≠ 0) ∨
        (scanZerosDown h fuel bin).1 = 0) ∧
      (∀ x ∈ (scanZerosDown h fuel bin).2, x < bin) ∧
      (scanZerosDown h fuel bin).2.length = bin - (scanZerosDown h fuel bin).1 := by
  intro fuel
  induction fuel with
  | zero =>
    intro bin hfuel
    simp only [scanZerosDown]
    exact ⟨le_rfl, fun j hj hj2 => by omega, Or.inr (by omega),
      fun x hx => absurd hx (List.not_mem_nil x), by simp⟩
  | succ f ih =>
    intro bin hfuel
    simp only [scanZerosDown]
    by_cases hA : 0 < bin
    · rw [if_pos hA]
      by_cases hB : countAt h (bin - 1) ≠ 0
      · rw [if_pos hB]
        refine ⟨by omega, fun j hj hj2 => by omega, Or.inl ⟨by omega, hB⟩,
          fun x hx => ?_, by simp; omega⟩
        rcases List.mem_singleton.mp hx with rfl
        omega
      · rw [if_neg hB]
        obtain ⟨i1, i2, i3, i4, i5⟩ := ih (bin - 1) (by omega)
        dsimp only
        refine ⟨by omega, ?_, ?_, ?_, ?_⟩
        · intro j hj hj2
          rcases Nat.eq_or_lt_of_le (Nat.le_sub_one_of_lt hj2) with heq | hlt
          · rw [heq]; exact not_not.mp hB
          · exact i2 j hj (by omega)
        · rcases i3 with ⟨hlt, hne⟩ | hz
          · exact Or.inl ⟨by omega, hne⟩
          · exact Or.inr hz
        · intro x hx
          rcases List.mem_cons.mp hx with rfl | hx2
          · omega
          · have := i4 x hx2; omega
        · simp only [List.length_cons, i5]; omega
    · rw [if_neg hA]
      exact ⟨le_rfl, fun j hj hj2 => by omega, Or.inr (by omega),
        fun x hx => absurd hx (List.not_mem_nil x), by simp⟩

lemma expandDown_spec (h : List Nat) (den lteRatio : Nat) :
    ∀ fuel lower lte, lower ≤ fuel → lte = sumBelow h (lower + 1) →
      (expandDown h den lteRatio fuel lower lte).lower ≤ lower ∧
      (sumBelow h (expandDown h den lteRatio fuel lower lte).lower * den < lteRatio ∨
        (expandDown h den lteRatio fuel lower lte).lower = 0) ∧
      (∀ k, (expandDown h den lteRatio fuel lower lte).lower < k → k ≤ lower →
        lteRatio ≤ sumBelow h k * den) ∧
      (∀ x ∈ (expandDown h den lteRatio fuel lower lte).reads, x ≤ lower) ∧
      (expandDown h den lteRatio fuel lower lte).reads.length ≤ lower + 1 := by
  intro fuel
  induction fuel with
  | zero =>
    intro lower lte hfuel hl
    simp only [expandDown]
    exact ⟨le_rfl, Or.inr (by omega), fun k hk hk2 => by omega,
      fun x hx => absurd hx (List.not_mem_nil x), by simp⟩
  | succ f ih =>
    intro lower lte hfuel hl
    simp only [expandDown]
    by_cases hA : 0 < lower
    · rw [if_pos hA]
      have hsplit : sumBelow h (lower + 1) = sumBelow h lower + countAt h lower :=
        sumBelow_succ h lower
      have hl2 : lte - countAt h lower = sumBelow h lower := by omega
      by_cases hB : (lte - countAt h lower) * den < lteRatio
      · rw [if_pos hB]
        dsimp only
        refine ⟨le_rfl, Or.inl (by rw [← hl2]; exact hB), fun k hk hk2 => by omega,
          fun x hx => ?_, by simp⟩
        rcases List.mem_singleton.mp hx with rfl
        exact le_rfl
      · rw [if_neg hB]
        have hl3 : lte - countAt h lower = sumBelow h (lower - 1 + 1) := by
          rw [hl2]; congr 1; omega
        obtain ⟨i1, i2, i3, i4, i5⟩ := ih (lower - 1) (lte - countAt h lower) (by omega) hl3
        dsimp only
        refine ⟨by omega, i2, ?_, ?_, ?_⟩
        · intro k hk hk2
          rcases Nat.eq_or_lt_of_le hk2 with rfl | hlt
          · rw [← hl2]; omega
          · exact i3 k hk (by omega)
        · intro x hx
          rcases List.mem_cons.mp hx with rfl | hx2
          · exact le_rfl
          · have := i4 x hx2; omega
        · simp only [List.length_cons]; omega
    · rw [if_neg hA]
      dsimp only
      exact ⟨le_rfl, Or.inr (by omega), fun k hk hk2 => by omega,
        fun x hx => absurd hx (List.not_mem_nil x), by simp⟩

lemma expandUp_spec (h : List Nat) (den gteRatio pop : Nat) :
    ∀ fuel upper gte sl, upper < h.length → h.length - upper ≤ fuel + 1 →
      gte = pop - sumBelow h upper → sl = sumBelow h upper →
      upper ≤ (expandUp h h.length den gteRatio fuel upper gte sl).upper ∧
      (expandUp h h.length den gteRatio fuel upper gte sl).upper < h.length ∧
      (expandUp h h.length den gteRatio fuel upper gte sl).sl =
        sumBelow h (expandUp h h.length den gteRatio fuel upper gte sl).upper ∧
      (∀ k, upper ≤ k → k < (expandUp h h.length den gteRatio fuel upper gte sl).upper →
        gteRatio ≤ (pop - sumBelow h (k + 1)) * den) ∧
      ((pop - sumBelow h ((expandUp h h.length den gteRatio fuel upper gte sl).upper + 1)) *
          den < gteRatio ∨
        (expandUp h h.length den gteRatio fuel upper gte sl).upper + 1 = h.length) ∧
      (∀ x ∈ (expandUp h h.length den gteRatio fuel upper gte sl).reads,
        upper ≤ x ∧ x < h.length) ∧
      (expandUp h h.length den gteRatio fuel upper gte sl).reads.length ≤
        h.length - upper := by
  intro fuel
  induction fuel with
  | zero =>
    intro upper gte sl hup hfuel hg hs
    simp only [expandUp]
    exact ⟨le_rfl, hup, hs, fun k hk hk2 => by omega, Or.inr (by omega),
      fun x hx => absurd hx (List.not_mem_nil x), by simp⟩
  | succ f ih =>
    intro upper gte sl hup hfuel hg hs
    simp only [expandUp]
    by_cases hA : upper + 1 < h.length
    · rw [if_pos hA]
      have hsplit : sumBelow h (upper + 1) = sumBelow h upper + countAt h upper :=
        sumBelow_succ h upper
      have hg2 : gte - countAt h upper = pop - sumBelow h (upper + 1) := by
        rw [hg, Nat.sub_sub, ← hsplit]
      by_cases hB : (gte - countAt h upper) * den < gteRatio
      · rw [if_pos hB]
        dsimp only
        refine ⟨le_rfl, hup, hs, fun k hk hk2 => by omega,
          Or.inl (by rw [← hg2]; exact hB), fun x hx => ?_, by simp; omega⟩
        rcases List.mem_singleton.mp hx with rfl
        exact ⟨le_rfl, hup⟩
      · rw [if_neg hB]
        have hs2 : sl + countAt h upper = sumBelow h (upper + 1) := by
          rw [hs, ← hsplit]
        obtain ⟨i1, i2, i3, i4, i5, i6, i7⟩ :=
          ih (upper + 1) (gte - countAt h upper) (sl + countAt h upper)
            hA (by omega) hg2 hs2
        dsimp only
        refine ⟨by omega, i2, i3, ?_, i5, ?_, ?_⟩
        · intro k hk hk2
          rcases Nat.eq_or_lt_of_le hk with rfl | hlt
          · rw [← hg2]; omega
          · exact i4 k (by omega) hk2
        · intro x hx
          rcases List.mem_cons.mp hx with rfl | hx2
          · exact ⟨le_rfl, hup⟩
          · have := i6 x hx2; omega
        · simp only [List.length_cons]; omega
    · rw [if_neg hA]
      dsimp only
      exact ⟨le_rfl, hup, hs, fun k hk hk2 => by omega, Or.inr (by omega),
        fun x hx => absurd hx (List.not_mem_nil x), by simp⟩

/-- Equality version of `gteCond_iff`. -/
lemma gteCondEq_iff {pop s n d : Nat} (hs : s ≤ pop) (hnd : n ≤ d) :
    (pop - s) * d = pop * (d - n) ↔ pop * n = s * d := by
  obtain ⟨a, rfl⟩ := Nat.exists_eq_add_of_le hs
  obtain ⟨e, rfl⟩ := Nat.exists_eq_add_of_le hnd
  simp only [Nat.add_sub_cancel_left, Nat.add_mul, Nat.mul_add]
  constructor <;> intro H <;> nlinarith

/-! ## The master lemma: `adjust` converges to the characterised range -/

set_option maxHeartbeats 1000000 in
/-- `adjust`, run from any state whose bookkeeping is correct (cursor inside
the histogram, `samples_lower` equal to the samples strictly below it), on a
non-empty histogram with its consistent population and a valid fraction,
lands exactly on the characterised quantile range and restores the
`samples_lower` invariant. -/
lemma adjust_spec (h : List Nat) (q : QuantilePosition)
    (hnum : 0 < q.num) (hnd : q.num < q.den)
    (hup : q.upper < h.length) (hpop : 0 < h.sum)
    (hsl : q.samples_lower = sumBelow h q.upper) :
    IsRefLower h q.num q.den (adjust h h.sum q).lower ∧
    IsRefUpper h q.num q.den (adjust h h.sum q).upper ∧
    (adjust h h.sum q).upper < h.length ∧
    (adjust h h.sum q).samples_lower = sumBelow h (adjust h h.sum q).upper ∧
    (adjust h h.sum q).num = q.num ∧ (adjust h h.sum q).den = q.den := by
  have hden : 0 < q.den := by omega
  have hsucc : countAt h q.upper + q.samples_lower = sumBelow h (q.upper + 1) := by
    rw [hsl, sumBelow_succ h q.upper]; omega
  simp only [adjust, adjustR]
  by_cases hb1 : (countAt h q.upper + q.samples_lower) * q.den < h.sum * q.num
  · rw [if_pos hb1]
    have hb1R : sumBelow h (q.upper + 1) * q.den < h.sum * q.num := by
      rw [← hsucc]; exact hb1
    obtain ⟨u1, u2, u3, u4, u5, u6, u7, u8, u9⟩ :=
      slideUp_spec h q.den (h.sum * q.num) h.length q.upper (countAt h q.upper)
        q.samples_lower (countAt h q.upper + q.samples_lower) hup (by omega) rfl hsl hsucc
    set u := slideUp h h.length q.den (h.sum * q.num) h.length q.upper
      (countAt h q.upper) q.samples_lower (countAt h q.upper + q.samples_lower) with hu
    have hexit : h.sum * q.num ≤ u.lte * q.den := by
      rcases u7 with hq | hcap
      · exact hq
      · rw [u5, sumBelow_of_length_le h (le_of_eq hcap.symm)]
        nlinarith
    have hLow : IsRefLower h q.num q.den u.bin := by
      constructor
      · rw [← u5]; exact hexit
      · intro k hk
        rcases lt_or_ge k q.upper with hku | hku
        · have hmono := sumBelow_mono h (show k + 1 ≤ q.upper + 1 by omega)
          have := Nat.mul_le_mul_right q.den hmono
          omega
        · exact u6 k hku hk
    by_cases htie : u.lte * q.den = h.sum * q.num
    · rw [if_pos htie]
      dsimp only
      have htieR : sumBelow h (u.bin + 1) * q.den = h.sum * q.num := by
        rw [← u5]; exact htie
      have hbin1 : u.bin + 1 < h.length := by
        rcases Nat.lt_or_ge (u.bin + 1) h.length with hlt | hge
        · exact hlt
        · exfalso
          rw [sumBelow_of_length_le h hge] at htieR
          nlinarith
      obtain ⟨z1, z2, z3, z4⟩ := fqScanZeros_spec h h.length u.bin u2 (by omega)
      have hfst := scanZerosUp_fst h h.length u.bin
      have hUp : IsRefUpper h q.num q.den (fqScanZeros h h.length h.length u.bin) :=
        fqScanZeros_IsRefUpper h hpop hnd u2 htieR
      have hzgt : u.bin < fqScanZeros h h.length h.length u.bin := by
        rcases z4 with ⟨hlt, _⟩ | hcap
        · exact hlt
        · omega
      have hslz : u.sl + u.here = sumBelow h (fqScanZeros h h.length h.length u.bin) := by
        have hz1 : u.sl + u.here = sumBelow h (u.bin + 1) := by
          rw [u4, u3, sumBelow_succ h u.bin]
        have hz2 : sumBelow h (fqScanZeros h h.length h.length u.bin) =
            sumBelow h (u.bin + 1) :=
          sumBelow_congr_of_zeros h (by omega) (fun j hj hj2 => z3 j (by omega) hj2)
        omega
      rw [hfst]
      exact ⟨hLow, hUp, z2, hslz, rfl, rfl⟩
    · rw [if_neg htie]
      dsimp only
      have hUp : IsRefUpper h q.num q.den u.bin := by
        refine ⟨by rw [← u5]; omega, fun k hk => le_of_lt (hLow.2 k hk)⟩
      exact ⟨hLow, hUp, u2, u4, rfl, rfl⟩
  · rw [if_neg hb1]
    have hb1R : h.sum * q.num ≤ sumBelow h (q.upper + 1) * q.den := by
      rw [← hsucc]; omega
    by_cases hb2 : (h.sum - q.samples_lower) * q.den < h.sum * (q.den - q.num)
    · rw [if_pos hb2]
      have hslle : sumBelow h q.upper ≤ h.sum := sumBelow_le_sum h q.upper
      have hb2R : h.sum * q.num < sumBelow h q.upper * q.den := by
        rw [hsl] at hb2
        exact (gteCond_iff hslle (le_of_lt hnd)).mp hb2
      obtain ⟨d1, d2, d3, d4, d5, d6, d7⟩ :=
        slideDown_spec h q.den (h.sum * (q.den - q.num)) h.sum h.length q.upper
          q.samples_lower (h.sum - q.samples_lower) (by omega) hslle hsl (by rw [hsl])
      set d := slideDown h q.den (h.sum * (q.den - q.num)) h.length q.upper
        q.samples_lower (h.sum - q.samples_lower) with hd
      have hd4R : ∀ k, d.bin < k → k ≤ q.upper → h.sum * q.num < sumBelow h k * q.den :=
        fun k hk hk2 => (gteCond_iff (sumBelow_le_sum h k) (le_of_lt hnd)).mp (d4 k hk hk2)
      have hstop : sumBelow h d.bin * q.den ≤ h.sum * q.num := by
        rcases d5 with hge | hz
        · by_contra hlt
          push_neg at hlt
          have := (gteCond_iff (sumBelow_le_sum h d.bin) (le_of_lt hnd)).mpr hlt
          rw [← d3] at this; omega
        · rw [hz, sumBelow_zero, Nat.zero_mul]; exact Nat.zero_le _
      have hdlt : d.bin < q.upper := by
        rcases Nat.eq_or_lt_of_le d1 with heq | hlt
        · exfalso; rw [heq] at hstop; omega
        · exact hlt
      have hUp : IsRefUpper h q.num q.den d.bin := by
        refine ⟨hd4R (d.bin + 1) (by omega) (by omega), fun k hk => ?_⟩
        have hmono := sumBelow_mono h (show k + 1 ≤ d.bin by omega)
        have := Nat.mul_le_mul_right q.den hmono
        omega
      by_cases htie : d.gte * q.den = h.sum * (q.den - q.num)
      · rw [if_pos htie]
        dsimp only
        have htieR : h.sum * q.num = sumBelow h d.bin * q.den := by
          rw [d3] at htie
          exact (gteCondEq_iff (sumBelow_le_sum h d.bin) (le_of_lt hnd)).mp htie
        have hdpos : 0 < d.bin := by
          by_contra hz
          have hz0 : d.bin = 0 := by omega
          rw [hz0, sumBelow_zero, Nat.zero_mul] at htieR
          have := Nat.mul_pos hpop hnum
          omega
        obtain ⟨s1, s2, s3, s4, s5⟩ := scanZerosDown_spec h h.length d.bin (by omega)
        set z := (scanZerosDown h h.length d.bin).1 with hz
        have hzlt : z < d.bin := by
          rcases s3 with ⟨hlt, _⟩ | hz0
          · exact hlt
          · omega
        have hzz : sumBelow h d.bin = sumBelow h (z + 1) :=
          sumBelow_congr_of_zeros h (by omega) (fun j hj hj2 => s2 j (by omega) hj2)
        have hLow : IsRefLower h q.num q.den z := by
          constructor
          · rw [← hzz]; exact le_of_eq htieR
          · intro k hk
            rcases s3 with ⟨hlt, hne⟩ | hz0
            · have e1 : sumBelow h (k + 1) ≤ sumBelow h z := sumBelow_mono h (by omega)
              have e2 : sumBelow h (z + 1) = sumBelow h z + countAt h z := sumBelow_succ h z
              have e3 : 0 < countAt h z * q.den := Nat.mul_pos (Nat.pos_of_ne_zero hne) hden
              have e4 := Nat.mul_le_mul_right q.den e1
              have e5 : sumBelow h (z + 1) * q.den =
                  sumBelow h z * q.den + countAt h z * q.den := by rw [e2, Nat.add_mul]
              have e6 : sumBelow h d.bin * q.den = sumBelow h (z + 1) * q.den := by rw [hzz]
              omega
            · omega
        exact ⟨hLow, hUp, by omega, d2, rfl, rfl⟩
      · rw [if_neg htie]
        dsimp only
        have hstrict : sumBelow h d.bin * q.den < h.sum * q.num := by
          rcases Nat.lt_trichotomy (sumBelow h d.bin * q.den) (h.sum * q.num) with hlt | heq | hgt
          · exact hlt
          · exfalso
            apply htie
            rw [d3]
            exact (gteCondEq_iff (sumBelow_le_sum h d.bin) (le_of_lt hnd)).mpr heq.symm
          · exfalso; omega
        have hLow : IsRefLower h q.num q.den d.bin := by
          refine ⟨le_of_lt (hd4R (d.bin + 1) (by omega) (by omega)), fun k hk => ?_⟩
          have hmono := sumBelow_mono h (show k + 1 ≤ d.bin by omega)
          have := Nat.mul_le_mul_right q.den hmono
          omega
        exact ⟨hLow, hUp, by omega, d2, rfl, rfl⟩
    · rw [if_neg hb2]
      dsimp only
      have hb2R : sumBelow h q.upper * q.den ≤ h.sum * q.num := by
        by_contra hq
        push_neg at hq
        apply hb2
        rw [hsl]
        exact (gteCond_iff (sumBelow_le_sum h q.upper) (le_of_lt hnd)).mpr hq
      obtain ⟨xd1, xd2, xd3, xd4, xd5⟩ :=
        expandDown_spec h q.den (h.sum * q.num) h.length q.upper
          (countAt h q.upper + q.samples_lower) (by omega) hsucc
      obtain ⟨xu1, xu2, xu3, xu4, xu5, xu6, xu7⟩ :=
        expandUp_spec h q.den (h.sum * (q.den - q.num)) h.sum h.length q.upper
          (h.sum - q.samples_lower) q.samples_lower hup (by omega) (by rw [hsl]) hsl
      set xd := expandDown h q.den (h.sum * q.num) h.length q.upper
        (countAt h q.upper + q.samples_lower) with hxd
      set xu := expandUp h h.length q.den (h.sum * (q.den - q.num)) h.length q.upper
        (h.sum - q.samples_lower) q.samples_lower with hxu
      have hLow : IsRefLower h q.num q.den xd.lower := by
        constructor
        · rcases Nat.eq_or_lt_of_le xd1 with heq | hlt
          · rw [heq]; exact hb1R
          · exact xd3 (xd.lower + 1) (by omega) (by omega)
        · intro k hk
          rcases xd2 with hlt | hz
          · have hmono := sumBelow_mono h (show k + 1 ≤ xd.lower by omega)
            have := Nat.mul_le_mul_right q.den hmono
            omega
          · omega
      have hUp : IsRefUpper h q.num q.den xu.upper := by
        constructor
        · rcases xu5 with hlt | hcap
          · exact (gteCond_iff (sumBelow_le_sum h _) (le_of_lt hnd)).mp hlt
          · rw [sumBelow_of_length_le h (by omega)]
            nlinarith
        · intro k hk
          rcases lt_or_ge k q.upper with hku | hku
          · have hmono := sumBelow_mono h (show k + 1 ≤ q.upper by omega)
            have := Nat.mul_le_mul_right q.den hmono
            omega
          · have hg := xu4 k hku hk
            by_contra hq
            push_neg at hq
            have := (gteCond_iff (sumBelow_le_sum h (k + 1)) (le_of_lt hnd)).mpr hq
            omega
      exact ⟨hLow, hUp, xu2, xu3, rfl, rfl⟩

/-- `adjust` and the reference scan agree (the engine's core equivalence):
both produce the characterised range, which is unique. -/
lemma adjust_eq_find_quantile (h : List Nat) (q : QuantilePosition)
    (hnum : 0 < q.num) (hnd : q.num < q.den)
    (hup : q.upper < h.length) (hpop : 0 < h.sum)
    (hsl : q.samples_lower = sumBelow h q.upper) :
    (⟨(adjust h h.sum q).lower, (adjust h h.sum q).upper⟩ : QuantileRange) =
      find_quantile h h.sum q.num q.den := by
  obtain ⟨a1, a2, _, _, _, _⟩ := adjust_spec h q hnum hnd hup hpop hsl
  obtain ⟨f1, f2, _⟩ := find_quantile_spec h q.num q.den hnum hnd hpop
  conv_rhs => rw [show find_quantile h h.sum q.num q.den =
    ⟨(find_quantile h h.sum q.num q.den).lower,
      (find_quantile h h.sum q.num q.den).upper⟩ from rfl]
  rw [IsRefLower_unique a1 f1, IsRefUpper_unique a2 f2]

/-! ## Facts about a single-bin edit -/

lemma countAt_set_self (h : List Nat) {i : Nat} (hi : i < h.length) (v : Nat) :
    countAt (h.set i v) i = v := by
  simp [countAt, List.getD, List.getElem?_set_self, hi]

lemma countAt_set_ne (h : List Nat) {i j : Nat} (hij : i ≠ j) (v : Nat) :
    countAt (h.set i v) j = countAt h j := by
  simp [countAt, List.getD, List.getElem?_set_ne hij]

lemma sumBelow_set_add (h : List Nat) {i : Nat} (hi : i < h.length) (d : Nat) :
    ∀ b, sumBelow (h.set i (countAt h i + d)) b =
      sumBelow h b + (if i < b then d else 0) := by
  intro b
  induction b with
  | zero => simp [sumBelow_zero]
  | succ b ih =>
    rw [sumBelow_succ, sumBelow_succ, ih]
    by_cases hib : i = b
    · subst hib
      rw [countAt_set_self h hi]
      have : ¬ i < i := by omega
      simp only [this, if_false, if_pos (by omega : i < i + 1)]
      omega
    · rw [countAt_set_ne h hib]
      by_cases hlt : i < b
      · simp only [if_pos hlt, if_pos (by omega : i < b + 1)]; omega
      · simp only [if_neg hlt, if_neg (by omega : ¬ i < b + 1)]; omega

lemma sumBelow_set_sub (h : List Nat) {i : Nat} (hi : i < h.length) {d : Nat}
    (hd : d ≤ countAt h i) :
    ∀ b, sumBelow (h.set i (countAt h i - d)) b =
      sumBelow h b - (if i < b then d else 0) := by
  intro b
  induction b with
  | zero => simp [sumBelow_zero]
  | succ b ih =>
    rw [sumBelow_succ, sumBelow_succ, ih]
    by_cases hib : i = b
    · subst hib
      rw [countAt_set_self h hi]
      have : ¬ i < i := by omega
      simp only [this, if_false, if_pos (by omega : i < i + 1)]
      omega
    · rw [countAt_set_ne h hib]
      by_cases hlt : i < b
      · have hdb : d ≤ sumBelow h b := by
          calc d ≤ countAt h i := hd
            _ ≤ sumBelow h (i + 1) := by rw [sumBelow_succ]; omega
            _ ≤ sumBelow h b := sumBelow_mono h (by omega)
        simp only [if_pos hlt, if_pos (by omega : i < b + 1)]; omega
      · simp only [if_neg hlt, if_neg (by omega : ¬ i < b + 1)]; omega

lemma sum_set_add (h : List Nat) {i : Nat} (hi : i < h.length) (d : Nat) :
    (h.set i (countAt h i + d)).sum = h.sum + d := by
  have := sumBelow_set_add h hi d h.length
  rw [sumBelow_of_length_le h le_rfl,
    sumBelow_of_length_le (h.set i (countAt h i + d)) (by simp)] at this
  rw [this, if_pos hi]

lemma sum_set_sub (h : List Nat) {i : Nat} (hi : i < h.length) {d : Nat}
    (hd : d ≤ countAt h i) :
    (h.set i (countAt h i - d)).sum = h.sum - d := by
  have := sumBelow_set_sub h hi hd h.length
  rw [sumBelow_of_length_le h le_rfl,
    sumBelow_of_length_le (h.set i (countAt h i - d)) (by simp)] at this
  rw [this, if_pos hi]

lemma countAt_le_sumBelow {h : List Nat} {i b : Nat} (hib : i < b) :
    countAt h i ≤ sumBelow h b := by
  calc countAt h i ≤ sumBelow h (i + 1) := by rw [sumBelow_succ]; omega
    _ ≤ sumBelow h b := sumBelow_mono h (by omega)

/-- Adjusting any correctly-bookkept state yields a converged state. -/
lemma Converged_adjust (h : List Nat) (q : QuantilePosition)
    (hnum : 0 < q.num) (hnd : q.num < q.den) (hup : q.upper < h.length)
    (hpop : 0 < h.sum) (hsl : q.samples_lower = sumBelow h q.upper) :
    Converged h (adjust h h.sum q) := by
  obtain ⟨a1, a2, a3, a4, a5, a6⟩ := adjust_spec h q hnum hnd hup hpop hsl
  obtain ⟨f1, f2, _⟩ := find_quantile_spec h q.num q.den hnum hnd hpop
  refine ⟨by rw [a5]; exact hnum, by rw [a5, a6]; exact hnd, ?_, a3, a4⟩
  rw [a5, a6]
  conv_rhs => rw [show find_quantile h h.sum q.num q.den =
    ⟨(find_quantile h h.sum q.num q.den).lower,
      (find_quantile h h.sum q.num q.den).upper⟩ from rfl]
  rw [IsRefLower_unique a1 f1, IsRefUpper_unique a2 f2]

/-! ## Preservation of the invariant by every engine operation -/

lemma qtInsert_valid {t : QuantileTracker} (ht : ValidTracker t) (i : Nat)
    (hW : t.histogram.population + 1 < W) : ValidTracker (qtInsert t i) := by
  obtain ⟨hpops, hpop, hWt, hq⟩ := ht
  simp only [qtInsert, HistogramBasic.insert]
  by_cases hi : i < t.histogram.counts.length
  · rw [if_pos hi]
    have hsum : (t.histogram.counts.set i (countAt t.histogram.counts i + 1)).sum =
        t.histogram.counts.sum + 1 := sum_set_add t.histogram.counts hi 1
    have hlen2 : (t.histogram.counts.set i (countAt t.histogram.counts i + 1)).length =
        t.histogram.counts.length := by simp
    refine ⟨by dsimp only; omega, by dsimp only; omega, by dsimp only; omega, ?_⟩
    dsimp only
    intro q' hq'
    rw [List.mem_map] at hq'
    obtain ⟨q, hqmem, rfl⟩ := hq'
    obtain ⟨c1, c2, c3, c4, c5⟩ := hq q hqmem
    have hpop2 : t.histogram.population + 1 =
        (t.histogram.counts.set i (countAt t.histogram.counts i + 1)).sum := by omega
    rw [hpop2]
    have hsb := sumBelow_set_add t.histogram.counts hi 1 q.upper
    by_cases hiu : i < q.upper
    · rw [if_pos hiu]
      exact Converged_adjust _ _ c1 c2 (by dsimp only; omega) (by omega)
        (by dsimp only; rw [hsb, if_pos hiu]; omega)
    · rw [if_neg hiu]
      exact Converged_adjust _ _ c1 c2 (by omega) (by omega)
        (by rw [hsb, if_neg hiu]; omega)
  · rw [if_neg hi]
    refine ⟨hpops, hpop, hWt, ?_⟩
    dsimp only
    intro q' hq'
    rw [List.mem_map] at hq'
    obtain ⟨q, hqmem, rfl⟩ := hq'
    obtain ⟨c1, c2, c3, c4, c5⟩ := hq q hqmem
    rw [if_neg (by omega : ¬ i < q.upper), hpops]
    exact Converged_adjust _ _ c1 c2 c4 (by omega) c5

lemma qtRemove_valid {t : QuantileTracker} (ht : ValidTracker t) (i : Nat)
    (hok : i < t.histogram.counts.length →
      1 ≤ countAt t.histogram.counts i ∧ 2 ≤ t.histogram.population) :
    ValidTracker (qtRemove t i) := by
  obtain ⟨hpops, hpop, hWt, hq⟩ := ht
  simp only [qtRemove, HistogramBasic.remove]
  by_cases hi : i < t.histogram.counts.length
  · rw [if_pos hi]
    obtain ⟨hc1, hp2⟩ := hok hi
    have hcW : countAt t.histogram.counts i < W := by
      have := countAt_le_sum t.histogram.counts i
      omega
    have hsubc : sub64 (countAt t.histogram.counts i) 1 =
        countAt t.histogram.counts i - 1 := sub64_exact hc1 hcW
    have hsubp : sub64 t.histogram.population 1 = t.histogram.population - 1 :=
      sub64_exact (by omega) hWt
    rw [hsubc, hsubp]
    have hsum : (t.histogram.counts.set i (countAt t.histogram.counts i - 1)).sum =
        t.histogram.counts.sum - 1 := sum_set_sub t.histogram.counts hi hc1
    have hlen2 : (t.histogram.counts.set i (countAt t.histogram.counts i - 1)).length =
        t.histogram.counts.length := by simp
    refine ⟨by dsimp only; omega, by dsimp only; omega, by dsimp only; omega, ?_⟩
    dsimp only
    intro q' hq'
    rw [List.mem_map] at hq'
    obtain ⟨q, hqmem, rfl⟩ := hq'
    obtain ⟨c1, c2, c3, c4, c5⟩ := hq q hqmem
    have hpop2 : t.histogram.population - 1 =
        (t.histogram.counts.set i (countAt t.histogram.counts i - 1)).sum := by omega
    rw [hpop2]
    have hsb := sumBelow_set_sub t.histogram.counts hi hc1 q.upper
    have hsumpos : 0 < (t.histogram.counts.set i (countAt t.histogram.counts i - 1)).sum := by
      omega
    by_cases hiu : i < q.upper
    · rw [if_pos hiu]
      have hslpos : 1 ≤ q.samples_lower := by
        rw [c5]
        calc 1 ≤ countAt t.histogram.counts i := hc1
          _ ≤ sumBelow t.histogram.counts q.upper := countAt_le_sumBelow hiu
      have hslW : q.samples_lower < W := by
        rw [c5]
        have := sumBelow_le_sum t.histogram.counts q.upper
        omega
      have : sub64 q.samples_lower 1 = q.samples_lower - 1 := sub64_exact hslpos hslW
      rw [this]
      exact Converged_adjust _ _ c1 c2 (by dsimp only; omega) hsumpos
        (by dsimp only; rw [hsb, if_pos hiu]; omega)
    · rw [if_neg hiu]
      exact Converged_adjust _ _ c1 c2 (by omega) hsumpos
        (by rw [hsb, if_neg hiu]; omega)
  · rw [if_neg hi]
    refine ⟨hpops, hpop, hWt, ?_⟩
    dsimp only
    intro q' hq'
    rw [List.mem_map] at hq'
    obtain ⟨q, hqmem, rfl⟩ := hq'
    obtain ⟨c1, c2, c3, c4, c5⟩ := hq q hqmem
    rw [if_neg (by omega : ¬ i < q.upper), hpops]
    exact Converged_adjust _ _ c1 c2 c4 (by omega) c5

/-- Uniform description of `histogram_basic::insert` (accepted or rejected). -/
lemma hb_insert_facts (hb : HistogramBasic) (i : Nat) :
    (hb.insert i).counts.length = hb.counts.length ∧
    (hb.insert i).population =
      hb.population + (if i < hb.counts.length then 1 else 0) ∧
    (hb.insert i).counts.sum =
      hb.counts.sum + (if i < hb.counts.length then 1 else 0) ∧
    ∀ b, b ≤ hb.counts.length →
      sumBelow (hb.insert i).counts b =
        sumBelow hb.counts b + (if i < b then 1 else 0) := by
  unfold HistogramBasic.insert
  by_cases hi : i < hb.counts.length
  · rw [if_pos hi]
    refine ⟨by simp, by rw [if_pos hi], ?_, ?_⟩
    · dsimp only; rw [if_pos hi]; exact sum_set_add hb.counts hi 1
    · intro b hb2
      dsimp only
      exact sumBelow_set_add hb.counts hi 1 b
  · rw [if_neg hi]
    refine ⟨rfl, by rw [if_neg hi]; omega, by rw [if_neg hi]; omega, ?_⟩
    intro b hb2
    rw [if_neg (by omega : ¬ i < b)]
    omega

/-- Uniform description of `histogram_basic::remove` when any in-range target
bin is nonempty (so the unsigned decrements are exact). -/
lemma hb_remove_facts (hb : HistogramBasic) (r : Nat)
    (hcons : hb.population = hb.counts.sum) (hW : hb.population < W)
    (hr1 : r < hb.counts.length → 1 ≤ countAt hb.counts r) :
    (hb.remove r).counts.length = hb.counts.length ∧
    (hb.remove r).population =
      hb.population - (if r < hb.counts.length then 1 else 0) ∧
    (hb.remove r).counts.sum =
      hb.counts.sum - (if r < hb.counts.length then 1 else 0) ∧
    ∀ b, b ≤ hb.counts.length →
      sumBelow (hb.remove r).counts b =
        sumBelow hb.counts b - (if r < b then 1 else 0) := by
  unfold HistogramBasic.remove
  by_cases hr : r < hb.counts.length
  · rw [if_pos hr]
    have hc1 := hr1 hr
    have hcW : countAt hb.counts r < W := by
      have := countAt_le_sum hb.counts r
      omega
    have hpop1 : 1 ≤ hb.population := by
      have := countAt_le_sum hb.counts r
      omega
    have hsubc : sub64 (countAt hb.counts r) 1 = countAt hb.counts r - 1 :=
      sub64_exact hc1 hcW
    have hsubp : sub64 hb.population 1 = hb.population - 1 := sub64_exact hpop1 hW
    rw [hsubc, hsubp]
    refine ⟨by simp, by rw [if_pos hr], ?_, ?_⟩
    · dsimp only; rw [if_pos hr]; exact sum_set_sub hb.counts hr hc1
    · intro b hb2
      dsimp only
      exact sumBelow_set_sub hb.counts hr hc1 b
  · rw [if_neg hr]
    refine ⟨rfl, by rw [if_neg hr]; omega, by rw [if_neg hr]; omega, ?_⟩
    intro b hb2
    rw [if_neg (by omega : ¬ r < b)]
    omega

set_option maxHeartbeats 1000000 in
lemma qtReplace_valid {t : QuantileTracker} (ht : ValidTracker t) (i r : Nat)
    (hok : i ≠ r →
      t.histogram.population + 1 < W ∧
      (r < t.histogram.counts.length →
        1 ≤ countAt (t.histogram.insert i).counts r ∧
        (i < t.histogram.counts.length ∨ 2 ≤ t.histogram.population))) :
    ValidTracker (qtReplace t i r) := by
  obtain ⟨hpops, hpop, hWt, hq⟩ := ht
  simp only [qtReplace]
  by_cases hir : i ≠ r
  · rw [if_pos hir]
    simp only [HistogramBasic.replace]
    obtain ⟨hW, hrem⟩ := hok hir
    obtain ⟨i1, i2, i3, i4⟩ := hb_insert_facts t.histogram i
    have hcons1 : (t.histogram.insert i).population = (t.histogram.insert i).counts.sum := by
      rw [i2, i3, hpops]
    have hW1 : (t.histogram.insert i).population < W := by
      rw [i2]
      by_cases hi : i < t.histogram.counts.length
      · rw [if_pos hi]; omega
      · rw [if_neg hi]; omega
    have hr1 : r < (t.histogram.insert i).counts.length →
        1 ≤ countAt (t.histogram.insert i).counts r := by
      rw [i1]; intro hr; exact (hrem hr).1
    obtain ⟨r1, r2, r3, r4⟩ := hb_remove_facts (t.histogram.insert i) r hcons1 hW1 hr1
    set h2 := (t.histogram.insert i).remove r with hh2
    have hlen2 : h2.counts.length = t.histogram.counts.length := by rw [r1, i1]
    have hpos2 : 0 < h2.counts.sum := by
      rw [r3, i3, i1]
      by_cases hrl : r < t.histogram.counts.length
      · rw [if_pos hrl]
        by_cases hil : i < t.histogram.counts.length
        · rw [if_pos hil]; omega
        · rw [if_neg hil]
          have := (hrem hrl).2
          rcases this with hcontra | hpop2
          · omega
          · omega
      · rw [if_neg hrl]
        by_cases hil : i < t.histogram.counts.length
        · rw [if_pos hil]; omega
        · rw [if_neg hil]; omega
    have hcons2 : h2.population = h2.counts.sum := by
      rw [r2, r3, hcons1]
    have hW2 : h2.population < W := by
      have e1 : (if r < (t.histogram.insert i).counts.length then (1 : Nat) else 0) ≤ 1 := by
        split <;> omega
      have e2 : (if i < t.histogram.counts.length then (1 : Nat) else 0) ≤ 1 := by
        split <;> omega
      omega
    refine ⟨hcons2, by dsimp only; omega, hW2, ?_⟩
    dsimp only
    intro q' hq'
    rw [List.mem_map] at hq'
    obtain ⟨q, hqmem, rfl⟩ := hq'
    obtain ⟨c1, c2, c3, c4, c5⟩ := hq q hqmem
    -- samples below the (unchanged) cursor in the intermediate and final
    -- histograms
    have hsb1 : sumBelow (t.histogram.insert i).counts q.upper =
        sumBelow t.histogram.counts q.upper + (if i < q.upper then 1 else 0) :=
      i4 q.upper (by omega)
    have hsb2 : sumBelow h2.counts q.upper =
        sumBelow (t.histogram.insert i).counts q.upper -
          (if r < q.upper then 1 else 0) :=
      r4 q.upper (by rw [i1]; omega)
    have hslW : q.samples_lower + (if i < q.upper then 1 else 0) < W := by
      have hle := sumBelow_le_sum t.histogram.counts q.upper
      by_cases hiu : i < q.upper
      · rw [if_pos hiu]; omega
      · rw [if_neg hiu]; omega
    have hslb : (if r < q.upper then 1 else 0) ≤
        q.samples_lower + (if i < q.upper then 1 else 0) := by
      by_cases hru : r < q.upper
      · rw [if_pos hru]
        have hrl : r < t.histogram.counts.length := by omega
        have hc1r := (hrem hrl).1
        have := countAt_le_sumBelow (h := (t.histogram.insert i).counts) hru
        rw [hsb1] at this
        omega
      · rw [if_neg hru]; omega
    have hsub : sub64 (q.samples_lower + (if i < q.upper then 1 else 0))
        (if r < q.upper then 1 else 0) =
        q.samples_lower + (if i < q.upper then 1 else 0) -
          (if r < q.upper then 1 else 0) := sub64_exact hslb hslW
    rw [hsub, hcons2]
    refine Converged_adjust _ _ c1 c2 (by dsimp only; omega) hpos2 ?_
    dsimp only
    rw [hsb2, hsb1, ← c5]
  · rw [if_neg hir]
    exact ⟨hpops, hpop, hWt, hq⟩

lemma qtRecalculate_valid {t : QuantileTracker} (ht : ValidTracker t) :
    ValidTracker (qtRecalculate t) := by
  obtain ⟨hpops, hpop, hWt, hq⟩ := ht
  have hlen : 0 < t.histogram.counts.length := length_pos_of_sum_pos (by omega)
  refine ⟨rfl, by dsimp only [qtRecalculate]; omega, by dsimp only [qtRecalculate]; omega, ?_⟩
  simp only [qtRecalculate]
  intro q' hq'
  rw [List.mem_map] at hq'
  obtain ⟨q, hqmem, rfl⟩ := hq'
  obtain ⟨c1, c2, c3, c4, c5⟩ := hq q hqmem
  simp only [recalcCore]
  rw [if_neg (by omega : ¬ t.histogram.counts.length ≤ 0)]
  exact Converged_adjust _ _ c1 c2 hlen (by omega) rfl

lemma qtAddQuantiles_valid {t : QuantileTracker} (ht : ValidTracker t)
    (qs : List (Nat × Nat)) (hqs : ∀ nd ∈ qs, 0 < nd.1 ∧ nd.1 < nd.2) :
    ValidTracker (qtAddQuantiles t qs) := by
  obtain ⟨hpops, hpop, hWt, hq⟩ := ht
  have hlen : 0 < t.histogram.counts.length := length_pos_of_sum_pos (by omega)
  refine ⟨hpops, hpop, hWt, ?_⟩
  simp only [qtAddQuantiles]
  intro q' hq'
  rw [List.mem_append] at hq'
  rcases hq' with hold | hnew
  · exact hq q' hold
  · rw [List.mem_map] at hnew
    obtain ⟨nd, hnd, rfl⟩ := hnew
    obtain ⟨hn1, hn2⟩ := hqs nd hnd
    rw [hpops]
    simp only [recalcCore]
    rw [if_neg (by omega : ¬ t.histogram.counts.length ≤ 0)]
    exact Converged_adjust _ _ hn1 hn2 hlen (by omega) rfl

lemma applyOp_valid {t : QuantileTracker} {o : Op} (ht : ValidTracker t)
    (hok : OpOk t o) : ValidTracker (applyOp t o) := by
  cases o with
  | insert i => exact qtInsert_valid ht i hok
  | remove i => exact qtRemove_valid ht i hok
  | replace i r => exact qtReplace_valid ht i r hok
  | recalc => exact qtRecalculate_valid ht
  | addQuantiles qs => exact qtAddQuantiles_valid ht qs hok

lemma applyOps_valid {t : QuantileTracker} {ops : List Op} (ht : ValidTracker t)
    (hops : OpsOk t ops) : ValidTracker (applyOps t ops) := by
  induction ops generalizing t with
  | nil => exact ht
  | cons o os ih => exact ih (applyOp_valid ht hops.1) hops.2

lemma OpsOk_append_left {t : QuantileTracker} {l1 l2 : List Op}
    (hops : OpsOk t (l1 ++ l2)) : OpsOk t l1 := by
  induction l1 generalizing t with
  | nil => trivial
  | cons o os ih => exact ⟨hops.1, ih hops.2⟩

/-! ## Claim C1: the equivalence invariant -/

/-- C1: for every sequence of engine operations on a valid tracker (admissible
operations over a histogram that stays non-empty), after each operation every
tracked quantile's stored range `(lower, upper)` equals the range the
reference full scan (`find_quantile_indexes`, with its recomputed population)
yields for the current histogram and that quantile's fraction. -/
theorem equivalence_invariant (t : QuantileTracker) (ops : List Op)
    (ht : ValidTracker t) (hops : OpsOk t ops) :
    ∀ pre post, ops = pre ++ post →
      ∀ q ∈ (applyOps t pre).quantiles,
        (⟨q.lower, q.upper⟩ : QuantileRange) =
          find_quantile (applyOps t pre).histogram.counts
            (applyOps t pre).histogram.counts.sum q.num q.den := by
  intro pre post hsplit q hqmem
  have hpre : OpsOk t pre := OpsOk_append_left (hsplit ▸ hops)
  exact ((applyOps_valid ht hpre).2.2.2 q hqmem).2.2.1

theorem equivalence_invariant_witness :
    qA ∈ (applyOps T0 preA).quantiles ∧
    (⟨qA.lower, qA.upper⟩ : QuantileRange) =
      find_quantile (applyOps T0 preA).histogram.counts
        (applyOps T0 preA).histogram.counts.sum qA.num qA.den :=
  ⟨by decide,
    equivalence_invariant T0 opsA (by decide) (by decide) preA postA (by decide)
      qA (by decide)⟩

/-! ## Claim C2: the `samples_lower` invariant -/

/-- C2: after every engine operation — insert, remove, replace, recalculate
or add_quantiles — every tracked quantile's cached `samples_lower` equals the
sum of the histogram counts over the bin indices strictly below its
`range.upper`. -/
theorem samples_lower_invariant (t : QuantileTracker) (ops : List Op)
    (ht : ValidTracker t) (hops : OpsOk t ops) :
    ∀ pre post, ops = pre ++ post →
      ∀ q ∈ (applyOps t pre).quantiles,
        q.samples_lower = sumBelow (applyOps t pre).histogram.counts q.upper := by
  intro pre post hsplit q hqmem
  have hpre : OpsOk t pre := OpsOk_append_left (hsplit ▸ hops)
  exact ((applyOps_valid ht hpre).2.2.2 q hqmem).2.2.2.2

theorem samples_lower_invariant_witness :
    qB ∈ (applyOps T0 opsA).quantiles ∧
    qB.samples_lower = sumBelow (applyOps T0 opsA).histogram.counts qB.upper :=
  ⟨by decide,
    samples_lower_invariant T0 opsA (by decide) (by decide) opsA [] (by decide)
      qB (by decide)⟩

/-! ## Claim C8: idempotence of `adjust` -/

/-- C8: running `adjust` on the state `adjust` has just produced — from any
correctly-bookkept state, with no intervening histogram mutation — changes
neither the range nor `samples_lower`. -/
theorem adjust_idempotent (h : List Nat) (q : QuantilePosition)
    (hnum : 0 < q.num) (hnd : q.num < q.den)
    (hup : q.upper < h.length) (hpop : 0 < h.sum)
    (hsl : q.samples_lower = sumBelow h q.upper) :
    (adjust h h.sum (adjust h h.sum q)).lower = (adjust h h.sum q).lower ∧
    (adjust h h.sum (adjust h h.sum q)).upper = (adjust h h.sum q).upper ∧
    (adjust h h.sum (adjust h h.sum q)).samples_lower =
      (adjust h h.sum q).samples_lower := by
  obtain ⟨a1, a2, a3, a4, a5, a6⟩ := adjust_spec h q hnum hnd hup hpop hsl
  obtain ⟨b1, b2, b3, b4, b5, b6⟩ :=
    adjust_spec h (adjust h h.sum q) (by rw [a5]; exact hnum)
      (by rw [a5, a6]; exact hnd) a3 hpop a4
  rw [a5, a6] at b1 b2
  have hl := IsRefLower_unique b1 a1
  have hu := IsRefUpper_unique b2 a2
  exact ⟨hl, hu, by rw [b4, hu, ← a4]⟩

/-! ## Claim C3: tie handling

The claim as stated — on exact equality the scans stop at "the last empty bin
of the following empty run (or the equality bin itself when no run follows)" —
does not match the code: both tie loops step one bin past the empty run and
stop AT the first populated bin (`if (counts[++index]) break;` leaves `index`
at that populated bin). -/

/-- C3 counterexample: on the histogram `[1, 1]` the median quota is met with
exact equality at bin 0 and no empty run follows (bin 1 is populated), so the
claim requires `range.upper = 0`; both the reference scan and `adjust` deliver
`range.upper = 1`. -/
theorem tie_upper_counterexample :
    sumBelow [1, 1] (0 + 1) * 2 = ([1, 1] : List Nat).sum * 1 ∧
    countAt [1, 1] 1 ≠ 0 ∧
    (find_quantile [1, 1] ([1, 1] : List Nat).sum 1 2).lower = 0 ∧
    (find_quantile [1, 1] ([1, 1] : List Nat).sum 1 2).upper ≠ 0 ∧
    (adjust [1, 1] ([1, 1] : List Nat).sum ⟨1, 2, 0, 0, 0, 0⟩).upper ≠ 0 := by
  decide

/-- C3 amended: in the exact-equality case both the reference scan and
`adjust` set `range.lower` to the equality bin and `range.upper` to the first
populated bin above it (never the last empty bin): the range is a genuine
range whose two endpoints are populated and whose interior is exactly the
empty run between them. -/
theorem tie_range_amended (h : List Nat) (num den : Nat)
    (hnum : 0 < num) (hnd : num < den) (hpop : 0 < h.sum)
    (htie : sumBelow h ((find_quantile h h.sum num den).lower + 1) * den =
      h.sum * num) :
    (find_quantile h h.sum num den).lower < (find_quantile h h.sum num den).upper ∧
    countAt h (find_quantile h h.sum num den).lower ≠ 0 ∧
    countAt h (find_quantile h h.sum num den).upper ≠ 0 ∧
    (∀ j, (find_quantile h h.sum num den).lower < j →
      j < (find_quantile h h.sum num den).upper → countAt h j = 0) ∧
    ∀ q : QuantilePosition, q.num = num → q.den = den → q.upper < h.length →
      q.samples_lower = sumBelow h q.upper →
      (adjust h h.sum q).lower = (find_quantile h h.sum num den).lower ∧
      (adjust h h.sum q).upper = (find_quantile h h.sum num den).upper := by
  obtain ⟨f1, f2, f3⟩ := find_quantile_spec h num den hnum hnd hpop
  have hden : 0 < den := by omega
  have hLU : (find_quantile h h.sum num den).lower <
      (find_quantile h h.sum num den).upper := by
    by_contra hle
    push_neg at hle
    have hm := sumBelow_mono h
      (show (find_quantile h h.sum num den).upper + 1 ≤
        (find_quantile h h.sum num den).lower + 1 by omega)
    have h1 := Nat.mul_le_mul_right den hm
    have h2 := f2.1
    omega
  have hcl : countAt h (find_quantile h h.sum num den).lower ≠ 0 := by
    rcases Nat.eq_zero_or_pos (find_quantile h h.sum num den).lower with hz | hl1
    · intro hc
      have hq : 0 < h.sum * num := Nat.mul_pos hpop hnum
      have hS : sumBelow h 1 = countAt h 0 := by
        rw [sumBelow_succ, sumBelow_zero]; omega
      rw [hz] at htie hc
      rw [Nat.zero_add, hS, hc] at htie
      omega
    · intro hc
      have h2 := f1.2 ((find_quantile h h.sum num den).lower - 1) (by omega)
      have heq : (find_quantile h h.sum num den).lower - 1 + 1 =
          (find_quantile h h.sum num den).lower := by omega
      rw [heq] at h2
      have hsucc := sumBelow_succ h (find_quantile h h.sum num den).lower
      rw [hc, Nat.add_zero] at hsucc
      rw [hsucc] at htie
      exact absurd htie (Nat.ne_of_lt h2)
  have hU1 : 0 < (find_quantile h h.sum num den).upper := by omega
  have hcu : countAt h (find_quantile h h.sum num den).upper ≠ 0 := by
    intro hc
    have h2 := f2.2 ((find_quantile h h.sum num den).upper - 1) (by omega)
    have heq : (find_quantile h h.sum num den).upper - 1 + 1 =
        (find_quantile h h.sum num den).upper := by omega
    rw [heq] at h2
    have hsucc := sumBelow_succ h (find_quantile h h.sum num den).upper
    rw [hc, Nat.add_zero] at hsucc
    have h3 := f2.1
    rw [hsucc] at h3
    exact absurd h3 (Nat.not_lt.mpr h2)
  refine ⟨hLU, hcl, hcu, ?_, ?_⟩
  · intro j hj1 hj2
    have e1 : sumBelow h ((find_quantile h h.sum num den).lower + 1) ≤ sumBelow h j :=
      sumBelow_mono h (by omega)
    have e2 := Nat.mul_le_mul_right den e1
    have e3 := f2.2 j hj2
    have e4 := sumBelow_succ h j
    have e5 : sumBelow h j * den ≤ sumBelow h (j + 1) * den := by
      have := sumBelow_mono h (show j ≤ j + 1 by omega)
      exact Nat.mul_le_mul_right den this
    have e6 : sumBelow h j = sumBelow h (j + 1) := by
      have h1 : sumBelow h j * den = sumBelow h (j + 1) * den := by omega
      have := Nat.eq_of_mul_eq_mul_right hden h1
      omega
    omega
  · intro q hqn hqd hqu hqs
    obtain ⟨a1, a2, _, _, a5, a6⟩ := adjust_spec h q (by omega) (by omega) hqu hpop hqs
    rw [hqn, hqd] at a1 a2
    exact ⟨IsRefLower_unique a1 f1, IsRefUpper_unique a2 f2⟩

theorem tie_range_amended_witness :
    (find_quantile [1, 0, 1] ([1, 0, 1] : List Nat).sum 1 2).lower <
      (find_quantile [1, 0, 1] ([1, 0, 1] : List Nat).sum 1 2).upper ∧
    countAt [1, 0, 1] 1 = 0 ∧
    (adjust [1, 0, 1] ([1, 0, 1] : List Nat).sum ⟨1, 2, 0, 0, 0, 0⟩).upper =
      (find_quantile [1, 0, 1] ([1, 0, 1] : List Nat).sum 1 2).upper := by
  have H := tie_range_amended [1, 0, 1] 1 2 (by decide) (by decide) (by decide) (by decide)
  exact ⟨H.1, by decide,
    (H.2.2.2.2 ⟨1, 2, 0, 0, 0, 0⟩ rfl rfl (by decide) (by decide)).2⟩

theorem adjust_idempotent_witness :
    (adjust [1, 1] ([1, 1] : List Nat).sum
        (adjust [1, 1] ([1, 1] : List Nat).sum ⟨1, 2, 0, 1, 1, 0⟩)).lower =
      (adjust [1, 1] ([1, 1] : List Nat).sum ⟨1, 2, 0, 1, 1, 0⟩).lower ∧
    (adjust [1, 1] ([1, 1] : List Nat).sum
        (adjust [1, 1] ([1, 1] : List Nat).sum ⟨1, 2, 0, 1, 1, 0⟩)).upper =
      (adjust [1, 1] ([1, 1] : List Nat).sum ⟨1, 2, 0, 1, 1, 0⟩).upper ∧
    (adjust [1, 1] ([1, 1] : List Nat).sum
        (adjust [1, 1] ([1, 1] : List Nat).sum ⟨1, 2, 0, 1, 1, 0⟩)).samples_lower =
      (adjust [1, 1] ([1, 1] : List Nat).sum ⟨1, 2, 0, 1, 1, 0⟩).samples_lower :=
  adjust_idempotent [1, 1] ⟨1, 2, 0, 1, 1, 0⟩ (by decide) (by decide) (by decide)
    (by decide) (by decide)

/-! ## C4: reject safety -/

/-- Adjusting a converged quantile changes none of `lower`, `upper`,
`samples_lower`. -/
lemma adjust_of_converged (h : List Nat) (q : QuantilePosition)
    (hpop : 0 < h.sum) (hc : Converged h q) :
    (adjust h h.sum q).lower = q.lower ∧
    (adjust h h.sum q).upper = q.upper ∧
    (adjust h h.sum q).samples_lower = q.samples_lower := by
  obtain ⟨c1, c2, c3, c4, c5⟩ := hc
  obtain ⟨a1, a2, a3, a4, a5, a6⟩ := adjust_spec h q c1 c2 c4 hpop c5
  obtain ⟨f1, f2, _⟩ := find_quantile_spec h q.num q.den c1 c2 hpop
  have hl0 : q.lower = (find_quantile h h.sum q.num q.den).lower := by rw [← c3]
  have hu0 : q.upper = (find_quantile h h.sum q.num q.den).upper := by rw [← c3]
  have hl : (adjust h h.sum q).lower = q.lower := by
    rw [hl0]; exact IsRefLower_unique a1 f1
  have hu : (adjust h h.sum q).upper = q.upper := by
    rw [hu0]; exact IsRefUpper_unique a2 f2
  exact ⟨hl, hu, by rw [a4, hu, c5]⟩

/-- C4 counterexample: a `remove` that targets an IN-RANGE bin whose count is
zero is not rejected by `histogram_basic::remove` (the guard checks only the
index): on the valid tracker over `[1, 0]` removing at bin 1 wraps that count
to `2^64 - 1` and decrements the population to 0, so histogram counts and
population do change, contrary to the claim. -/
theorem reject_zero_count_counterexample :
    ValidTracker Tc4 ∧
    1 < Tc4.histogram.counts.length ∧
    countAt Tc4.histogram.counts 1 = 0 ∧
    (qtRemove Tc4 1).histogram.population ≠ Tc4.histogram.population ∧
    countAt (qtRemove Tc4 1).histogram.counts 1 ≠ countAt Tc4.histogram.counts 1 := by
  decide

/-- C4 amended: the out-of-range half of the claim holds — an `insert` or
`remove` whose index is outside `[0, size)` changes neither the histogram
(counts and population) nor any tracked quantile's `lower`, `upper` or
`samples_lower` on a valid tracker (the per-quantile `adjust` still runs, but
it fixes every converged state).  The zero-count-remove half is false. -/
theorem reject_safety_amended (t : QuantileTracker) (i : Nat)
    (ht : ValidTracker t) (hi : t.histogram.counts.length ≤ i) :
    (qtInsert t i).histogram = t.histogram ∧
    (qtRemove t i).histogram = t.histogram ∧
    (qtInsert t i).quantiles.map (fun q => (q.lower, q.upper, q.samples_lower)) =
      t.quantiles.map (fun q => (q.lower, q.upper, q.samples_lower)) ∧
    (qtRemove t i).quantiles.map (fun q => (q.lower, q.upper, q.samples_lower)) =
      t.quantiles.map (fun q => (q.lower, q.upper, q.samples_lower)) := by
  obtain ⟨hpops, hpop, hWt, hq⟩ := ht
  have hni : ¬ i < t.histogram.counts.length := by omega
  have hins : t.histogram.insert i = t.histogram := by
    rw [HistogramBasic.insert, if_neg hni]
  have hrem : t.histogram.remove i = t.histogram := by
    rw [HistogramBasic.remove, if_neg hni]
  have hpos : 0 < t.histogram.counts.sum := by omega
  refine ⟨?_, ?_, ?_, ?_⟩
  · simp only [qtInsert]; rw [hins]
  · simp only [qtRemove]; rw [hrem]
  · simp only [qtInsert]
    rw [hins, List.map_map]
    refine List.map_congr_left ?_
    intro q hmem
    obtain ⟨c1, c2, c3, c4, c5⟩ := hq q hmem
    dsimp only [Function.comp]
    rw [if_neg (show ¬ i < q.upper by omega), hpops]
    have hadj := adjust_of_converged t.histogram.counts q hpos ⟨c1, c2, c3, c4, c5⟩
    rw [hadj.1, hadj.2.1, hadj.2.2]
  · simp only [qtRemove]
    rw [hrem, List.map_map]
    refine List.map_congr_left ?_
    intro q hmem
    obtain ⟨c1, c2, c3, c4, c5⟩ := hq q hmem
    dsimp only [Function.comp]
    rw [if_neg (show ¬ i < q.upper by omega), hpops]
    have hadj := adjust_of_converged t.histogram.counts q hpos ⟨c1, c2, c3, c4, c5⟩
    rw [hadj.1, hadj.2.1, hadj.2.2]

theorem reject_safety_amended_witness :
    ValidTracker Tc4 ∧ Tc4.histogram.counts.length ≤ 5 ∧
    ((qtInsert Tc4 5).histogram = Tc4.histogram ∧
     (qtRemove Tc4 5).histogram = Tc4.histogram ∧
     (qtInsert Tc4 5).quantiles.map (fun q => (q.lower, q.upper, q.samples_lower)) =
       Tc4.quantiles.map (fun q => (q.lower, q.upper, q.samples_lower)) ∧
     (qtRemove Tc4 5).quantiles.map (fun q => (q.lower, q.upper, q.samples_lower)) =
       Tc4.quantiles.map (fun q => (q.lower, q.upper, q.samples_lower))) :=
  ⟨by decide, by decide, reject_safety_amended Tc4 5 (by decide) (by decide)⟩

/-! ## C5: quantile registration validation -/

/-- `histogram_tracked::add_quantiles` never touches the histogram, whichever
way the per-quantile validation goes. -/
lemma qtAddQuantilesE_histogram :
    ∀ (qs : List (Nat × Nat)) (t : QuantileTracker),
      (qtAddQuantilesE t qs).1.histogram = t.histogram
  | [], _ => rfl
  | nd :: rest, t => by
    simp only [qtAddQuantilesE]
    cases recalculateE t.histogram.counts t.histogram.population 0
        { num := nd.1, den := nd.2, lower := 0, upper := 0, samples_lower := 0 } with
    | error e => rfl
    | ok q2 => exact qtAddQuantilesE_histogram rest _

/-- C5 counterexample: the `edb::quantile_tracker` constructor accepts the
fraction `1/1` (its guard is `num > den`, not `num >= den`), while the claim —
and the quern-side validation — require `numerator >= denominator` to fail. -/
theorem quantile_validation_counterexample :
    edbQuantileCheck 1 1 = .ok () ∧ quernQuantileCheck 1 1 = .error () :=
  ⟨rfl, rfl⟩

/-- C5 amended: the quern validation (`quantile::recalculate`) accepts exactly
the fractions with `0 < num < den` and throws before any state change; the edb
constructor validation is weaker, accepting exactly `0 < num ≤ den` (so it
admits degenerate `num = den` fractions); and registration via `add_quantiles`
never mutates the histogram, in the failing path as well as the accepting
one. -/
theorem quantile_validation_amended (num den : Int) (n d : Nat)
    (t : QuantileTracker) (qs : List (Nat × Nat)) :
    (quernQuantileCheck num den = .ok () ↔ 0 < num ∧ num < den) ∧
    (edbQuantileCheck n d = .ok () ↔ 0 < n ∧ n ≤ d) ∧
    (qtAddQuantilesE t qs).1.histogram = t.histogram := by
  refine ⟨?_, ?_, qtAddQuantilesE_histogram qs t⟩
  · simp only [quernQuantileCheck]
    split_ifs with h1 h2 h3 <;> simp <;> omega
  · simp only [edbQuantileCheck]
    split_ifs with h1 h2 h3 <;> simp <;> omega

/-! ## C9: the adjust walk stays in bounds and is linearly bounded -/

lemma slideUp_reads_only (h : List Nat) (size den lteRatio : Nat) :
    ∀ fuel bin here sl lte,
      (∀ x ∈ (slideUp h size den lteRatio fuel bin here sl lte).reads,
        bin < x ∧ x < size) ∧
      (slideUp h size den lteRatio fuel bin here sl lte).reads.length ≤ fuel := by
  intro fuel
  induction fuel with
  | zero => intro bin here sl lte; simp [slideUp]
  | succ f ih =>
    intro bin here sl lte
    simp only [slideUp]
    by_cases hA : bin + 1 < size ∧ lte * den < lteRatio
    · rw [if_pos hA]
      obtain ⟨i1, i2⟩ := ih (bin + 1) (countAt h (bin + 1)) (sl + here)
        (lte + countAt h (bin + 1))
      dsimp only
      refine ⟨fun x hx => ?_, by simp only [List.length_cons]; omega⟩
      rcases List.mem_cons.mp hx with rfl | hx2
      · exact ⟨by omega, hA.1⟩
      · have := i1 x hx2; omega
    · rw [if_neg hA]; simp

lemma scanZerosUp_reads_only (h : List Nat) (size : Nat) :
    ∀ fuel bin,
      (∀ x ∈ (scanZerosUp h size fuel bin).2, bin < x ∧ x < size) ∧
      (scanZerosUp h size fuel bin).2.length ≤ fuel := by
  intro fuel
  induction fuel with
  | zero => intro bin; simp [scanZerosUp]
  | succ f ih =>
    intro bin
    simp only [scanZerosUp]
    by_cases hA : bin + 1 < size
    · rw [if_pos hA]
      by_cases hB : countAt h (bin + 1) ≠ 0
      · rw [if_pos hB]
        refine ⟨fun x hx => ?_, by simp⟩
        rcases List.mem_singleton.mp hx with rfl
        exact ⟨by omega, hA⟩
      · rw [if_neg hB]
        obtain ⟨i1, i2⟩ := ih (bin + 1)
        dsimp only
        refine ⟨fun x hx => ?_, by simp only [List.length_cons]; omega⟩
        rcases List.mem_cons.mp hx with rfl | hx2
        · exact ⟨by omega, hA⟩
        · have := i1 x hx2; omega
    · rw [if_neg hA]; simp

lemma slideDown_reads_only (h : List Nat) (den gteRatio : Nat) :
    ∀ fuel bin sl gte,
      (∀ x ∈ (slideDown h den gteRatio fuel bin sl gte).reads, x < bin) ∧
      (slideDown h den gteRatio fuel bin sl gte).reads.length ≤ fuel ∧
      (slideDown h den gteRatio fuel bin sl gte).bin ≤ bin := by
  intro fuel
  induction fuel with
  | zero => intro bin sl gte; simp [slideDown]
  | succ f ih =>
    intro bin sl gte
    simp only [slideDown]
    by_cases hA : 0 < bin ∧ gte * den < gteRatio
    · rw [if_pos hA]
      obtain ⟨i1, i2, i3⟩ := ih (bin - 1) (sl - countAt h (bin - 1))
        (gte + countAt h (bin - 1))
      dsimp only
      refine ⟨fun x hx => ?_, by simp only [List.length_cons]; omega, by omega⟩
      rcases List.mem_cons.mp hx with rfl | hx2
      · omega
      · have := i1 x hx2; omega
    · rw [if_neg hA]; simp

lemma expandDown_reads_only (h : List Nat) (den lteRatio : Nat) :
    ∀ fuel lower lte,
      (∀ x ∈ (expandDown h den lteRatio fuel lower lte).reads, x ≤ lower) ∧
      (expandDown h den lteRatio fuel lower lte).reads.length ≤ fuel := by
  intro fuel
  induction fuel with
  | zero => intro lower lte; simp [expandDown]
  | succ f ih =>
    intro lower lte
    simp only [expandDown]
    by_cases hA : 0 < lower
    · rw [if_pos hA]
      by_cases hB : (lte - countAt h lower) * den < lteRatio
      · rw [if_pos hB]
        refine ⟨fun x hx => ?_, by simp⟩
        rcases List.mem_singleton.mp hx with rfl
        omega
      · rw [if_neg hB]
        obtain ⟨i1, i2⟩ := ih (lower - 1) (lte - countAt h lower)
        dsimp only
        refine ⟨fun x hx => ?_, by simp only [List.length_cons]; omega⟩
        rcases List.mem_cons.mp hx with rfl | hx2
        · omega
        · have := i1 x hx2; omega
    · rw [if_neg hA]; simp

lemma expandUp_reads_only (h : List Nat) (size den gteRatio : Nat) :
    ∀ fuel upper gte sl,
      (∀ x ∈ (expandUp h size den gteRatio fuel upper gte sl).reads,
        upper ≤ x ∧ x + 1 < size) ∧
      (expandUp h size den gteRatio fuel upper gte sl).reads.length ≤ fuel := by
  intro fuel
  induction fuel with
  | zero => intro upper gte sl; simp [expandUp]
  | succ f ih =>
    intro upper gte sl
    simp only [expandUp]
    by_cases hA : upper + 1 < size
    · rw [if_pos hA]
      by_cases hB : (gte - countAt h upper) * den < gteRatio
      · rw [if_pos hB]
        refine ⟨fun x hx => ?_, by simp⟩
        rcases List.mem_singleton.mp hx with rfl
        exact ⟨le_rfl, hA⟩
      · rw [if_neg hB]
        obtain ⟨i1, i2⟩ := ih (upper + 1) (gte - countAt h upper) (sl + countAt h upper)
        dsimp only
        refine ⟨fun x hx => ?_, by simp only [List.length_cons]; omega⟩
        rcases List.mem_cons.mp hx with rfl | hx2
        · exact ⟨le_rfl, hA⟩
        · have := i1 x hx2; omega
    · rw [if_neg hA]; simp

/-- C9: `adjust`, run from any state whose cursor (`range.upper`) is in
bounds, reads only bin indices inside `[0, size)` during its walk, and the
walk's total length is linearly bounded by the histogram size (each internal
loop runs with budget `size`; the loop-specification lemmas above show each
exits on its guard, which the cursor approaches monotonically — the fuel is
never the binding condition — so the embedded total function renders the
always-terminating loops of the source). -/
theorem adjust_reads_bounded (h : List Nat) (population : Nat)
    (q : QuantilePosition) (hup : q.upper < h.length) :
    (∀ x ∈ (adjustR h population q).reads, x < h.length) ∧
    (adjustR h population q).reads.length ≤ 1 + 2 * h.length := by
  simp only [adjustR]
  by_cases hb1 : (countAt h q.upper + q.samples_lower) * q.den < population * q.num
  · rw [if_pos hb1]
    set u := slideUp h h.length q.den (population * q.num) h.length q.upper
      (countAt h q.upper) q.samples_lower (countAt h q.upper + q.samples_lower) with hu
    obtain ⟨s1, s2⟩ := slideUp_reads_only h h.length q.den (population * q.num)
      h.length q.upper (countAt h q.upper) q.samples_lower
      (countAt h q.upper + q.samples_lower)
    rw [← hu] at s1 s2
    by_cases htie : u.lte * q.den = population * q.num
    · rw [if_pos htie]
      dsimp only
      obtain ⟨z1, z2⟩ := scanZerosUp_reads_only h h.length h.length u.bin
      refine ⟨fun x hx => ?_, ?_⟩
      · rcases List.mem_cons.mp hx with rfl | hx2
        · exact hup
        · rcases List.mem_append.mp hx2 with hxu | hxz
          · exact (s1 x hxu).2
          · exact (z1 x hxz).2
      · simp only [List.length_cons, List.length_append]; omega
    · rw [if_neg htie]
      dsimp only
      refine ⟨fun x hx => ?_, ?_⟩
      · rcases List.mem_cons.mp hx with rfl | hx2
        · exact hup
        · exact (s1 x hx2).2
      · simp only [List.length_cons]; omega
  · rw [if_neg hb1]
    by_cases hb2 : (population - q.samples_lower) * q.den <
        population * (q.den - q.num)
    · rw [if_pos hb2]
      set d := slideDown h q.den (population * (q.den - q.num)) h.length q.upper
        q.samples_lower (population - q.samples_lower) with hd
      obtain ⟨d1, d2, d3⟩ := slideDown_reads_only h q.den
        (population * (q.den - q.num)) h.length q.upper q.samples_lower
        (population - q.samples_lower)
      rw [← hd] at d1 d2 d3
      by_cases htie : d.gte * q.den = population * (q.den - q.num)
      · rw [if_pos htie]
        dsimp only
        obtain ⟨_, _, _, z4, z5⟩ := scanZerosDown_spec h h.length d.bin (by omega)
        refine ⟨fun x hx => ?_, ?_⟩
        · rcases List.mem_cons.mp hx with rfl | hx2
          · exact hup
          · rcases List.mem_append.mp hx2 with hxd | hxz
            · have := d1 x hxd; omega
            · have := z4 x hxz; omega
        · simp only [List.length_cons, List.length_append]; omega
      · rw [if_neg htie]
        dsimp only
        refine ⟨fun x hx => ?_, ?_⟩
        · rcases List.mem_cons.mp hx with rfl | hx2
          · exact hup
          · have := d1 x hx2; omega
        · simp only [List.length_cons]; omega
    · rw [if_neg hb2]
      dsimp only
      obtain ⟨x1, x2⟩ := expandDown_reads_only h q.den (population * q.num)
        h.length q.upper (countAt h q.upper + q.samples_lower)
      obtain ⟨y1, y2⟩ := expandUp_reads_only h h.length q.den
        (population * (q.den - q.num)) h.length q.upper
        (population - q.samples_lower) q.samples_lower
      refine ⟨fun x hx => ?_, ?_⟩
      · rcases List.mem_cons.mp hx with rfl | hx2
        · exact hup
        · rcases List.mem_append.mp hx2 with hxd | hxu
          · have := x1 x hxd; omega
          · have := y1 x hxu; omega
      · simp only [List.length_cons, List.length_append]; omega

theorem adjust_reads_bounded_witness :
    (1 : Nat) < ([1, 1] : List Nat).length ∧
    ((∀ x ∈ (adjustR [1, 1] 2 ⟨1, 2, 0, 1, 1, 0⟩).reads, x < ([1, 1] : List Nat).length) ∧
      (adjustR [1, 1] 2 ⟨1, 2, 0, 1, 1, 0⟩).reads.length ≤ 1 + 2 * ([1, 1] : List Nat).length) :=
  ⟨by decide, adjust_reads_bounded [1, 1] 2 ⟨1, 2, 0, 1, 1, 0⟩ (by decide)⟩

/-! ## C10: movement of the endpoints under one accepted mutation -/

/-- If some value `X` sits below the weighted prefix sum at `b` and the
weighted prefix sum at `b + 1` is at most `Y < X + den`, then bin `b` is
empty. -/
lemma countAt_zero_of_squeeze (h' : List Nat) (b den X Y : Nat)
    (h1 : X ≤ sumBelow h' b * den)
    (h2 : sumBelow h' (b + 1) * den ≤ Y)
    (h3 : Y < X + den) : countAt h' b = 0 := by
  have hsucc := sumBelow_succ h' b
  have p3 : sumBelow h' (b + 1) * den = sumBelow h' b * den + countAt h' b * den := by
    rw [hsucc]; ring
  by_contra hc
  have hc1 : 1 ≤ countAt h' b := by omega
  have p4 : den ≤ countAt h' b * den := by
    calc den = 1 * den := (one_mul den).symm
      _ ≤ countAt h' b * den := Nat.mul_le_mul_right den hc1
  omega

/-- Inserting one sample (every prefix sum grows by at most one, the quota by
exactly `num < den`) leaves every bin strictly between the old and new
reference bounds empty, for both endpoints and both movement directions. -/
lemma ref_insert_skips_empty (h h' : List Nat) (num den Q : Nat)
    (hnd : num < den)
    (hS1 : ∀ x, sumBelow h x ≤ sumBelow h' x)
    (hS2 : ∀ x, sumBelow h' x ≤ sumBelow h x + 1)
    (L L' U U' : Nat)
    (hL1 : Q ≤ sumBelow h (L + 1) * den)
    (hL2 : ∀ k, k < L → sumBelow h (k + 1) * den < Q)
    (hL1' : Q + num ≤ sumBelow h' (L' + 1) * den)
    (hL2' : ∀ k, k < L' → sumBelow h' (k + 1) * den < Q + num)
    (hU1 : Q < sumBelow h (U + 1) * den)
    (hU2 : ∀ k, k < U → sumBelow h (k + 1) * den ≤ Q)
    (hU1' : Q + num < sumBelow h' (U' + 1) * den)
    (hU2' : ∀ k, k < U' → sumBelow h' (k + 1) * den ≤ Q + num) :
    (∀ b, L' < b → b < L → countAt h' b = 0) ∧
    (∀ b, L < b → b < L' → countAt h' b = 0) ∧
    (∀ b, U' < b → b < U → countAt h' b = 0) ∧
    (∀ b, U < b → b < U' → countAt h' b = 0) := by
  refine ⟨?_, ?_, ?_, ?_⟩
  · intro b hb1 hb2
    have mono := Nat.mul_le_mul_right den (sumBelow_mono h' (show L' + 1 ≤ b by omega))
    have m2 := hL2 b (by omega)
    have m5 := Nat.mul_le_mul_right den (hS2 (b + 1))
    have m5' : (sumBelow h (b + 1) + 1) * den = sumBelow h (b + 1) * den + den := by ring
    exact countAt_zero_of_squeeze h' b den (Q + num) (Q + den - 1)
      (by omega) (by omega) (by omega)
  · intro b hb1 hb2
    have mono := Nat.mul_le_mul_right den (sumBelow_mono h (show L + 1 ≤ b by omega))
    have m1 := hL2' b (by omega)
    have m6 := Nat.mul_le_mul_right den (hS1 b)
    exact countAt_zero_of_squeeze h' b den Q (Q + num - 1)
      (by omega) (by omega) (by omega)
  · intro b hb1 hb2
    have mono := Nat.mul_le_mul_right den (sumBelow_mono h' (show U' + 1 ≤ b by omega))
    have m2 := hU2 b (by omega)
    have m5 := Nat.mul_le_mul_right den (hS2 (b + 1))
    have m5' : (sumBelow h (b + 1) + 1) * den = sumBelow h (b + 1) * den + den := by ring
    exact countAt_zero_of_squeeze h' b den (Q + num + 1) (Q + den)
      (by omega) (by omega) (by omega)
  · intro b hb1 hb2
    have mono := Nat.mul_le_mul_right den (sumBelow_mono h (show U + 1 ≤ b by omega))
    have m1 := hU2' b (by omega)
    have m6 := Nat.mul_le_mul_right den (hS1 b)
    exact countAt_zero_of_squeeze h' b den (Q + 1) (Q + num)
      (by omega) (by omega) (by omega)

/-- Removing one sample (every prefix sum shrinks by at most one, the quota by
exactly `num < den`) leaves every bin strictly between the old and new
reference bounds empty. -/
lemma ref_remove_skips_empty (h h' : List Nat) (num den Q Qp : Nat)
    (hnd : num < den) (hQ : Qp + num = Q)
    (hS1 : ∀ x, sumBelow h' x ≤ sumBelow h x)
    (hS2 : ∀ x, sumBelow h x ≤ sumBelow h' x + 1)
    (L L' U U' : Nat)
    (hL1 : Q ≤ sumBelow h (L + 1) * den)
    (hL2 : ∀ k, k < L → sumBelow h (k + 1) * den < Q)
    (hL1' : Qp ≤ sumBelow h' (L' + 1) * den)
    (hL2' : ∀ k, k < L' → sumBelow h' (k + 1) * den < Qp)
    (hU1 : Q < sumBelow h (U + 1) * den)
    (hU2 : ∀ k, k < U → sumBelow h (k + 1) * den ≤ Q)
    (hU1' : Qp < sumBelow h' (U' + 1) * den)
    (hU2' : ∀ k, k < U' → sumBelow h' (k + 1) * den ≤ Qp) :
    (∀ b, L' < b → b < L → countAt h' b = 0) ∧
    (∀ b, L < b → b < L' → countAt h' b = 0) ∧
    (∀ b, U' < b → b < U → countAt h' b = 0) ∧
    (∀ b, U < b → b < U' → countAt h' b = 0) := by
  refine ⟨?_, ?_, ?_, ?_⟩
  · intro b hb1 hb2
    have mono := Nat.mul_le_mul_right den (sumBelow_mono h' (show L' + 1 ≤ b by omega))
    have m2 := hL2 b (by omega)
    have m5 := Nat.mul_le_mul_right den (hS1 (b + 1))
    exact countAt_zero_of_squeeze h' b den Qp (Q - 1)
      (by omega) (by omega) (by omega)
  · intro b hb1 hb2
    have mono := Nat.mul_le_mul_right den (sumBelow_mono h (show L + 1 ≤ b by omega))
    have m1 := hL2' b (by omega)
    have m6 := Nat.mul_le_mul_right den (hS2 b)
    have m6' : (sumBelow h' b + 1) * den = sumBelow h' b * den + den := by ring
    exact countAt_zero_of_squeeze h' b den (Q - den) (Qp - 1)
      (by omega) (by omega) (by omega)
  · intro b hb1 hb2
    have mono := Nat.mul_le_mul_right den (sumBelow_mono h' (show U' + 1 ≤ b by omega))
    have m2 := hU2 b (by omega)
    have m5 := Nat.mul_le_mul_right den (hS1 (b + 1))
    exact countAt_zero_of_squeeze h' b den (Qp + 1) Q
      (by omega) (by omega) (by omega)
  · intro b hb1 hb2
    have mono := Nat.mul_le_mul_right den (sumBelow_mono h (show U + 1 ≤ b by omega))
    have m1 := hU2' b (by omega)
    have m6 := Nat.mul_le_mul_right den (hS2 b)
    have m6' : (sumBelow h' b + 1) * den = sumBelow h' b * den + den := by ring
    exact countAt_zero_of_squeeze h' b den (Q + 1 - den) Qp
      (by omega) (by omega) (by omega)

/-- C10 counterexample: on the valid tracker over `[0, 0, 1]` (median at
`⟨2, 2⟩`), a single accepted insert at bin 0 moves the median's `range.lower`
from 2 to 0 — a decrease of 2, though only one sample was inserted since the
last convergence. -/
theorem monotonicity_counterexample :
    ValidTracker Tc10 ∧
    (Tc10.quantiles.map fun q => q.lower) = [2] ∧
    ((qtInsert Tc10 0).quantiles.map fun q => q.lower) = [0] := by
  decide

/-- C10 amended: one accepted insert or remove can move an endpoint by more
than one bin, but every bin it skips over is empty in the updated histogram:
for the `n`-th tracked quantile, every bin strictly between the old and new
`range.lower` (in either direction), and likewise for `range.upper`, has
count zero after the mutation.  Any in-range insert qualifies; the remove
half additionally assumes the removed sample is present and does not empty
the histogram (the spec's admissibility conditions for a remove). -/
theorem monotonicity_amended (t : QuantileTracker) (i : Nat)
    (ht : ValidTracker t) (hi : i < t.histogram.counts.length) :
    ∀ (n : Nat) (q qi qr : QuantilePosition), t.quantiles[n]? = some q →
      (qtInsert t i).quantiles[n]? = some qi →
      (qtRemove t i).quantiles[n]? = some qr →
      ((∀ b, qi.lower < b → b < q.lower →
          countAt (qtInsert t i).histogram.counts b = 0) ∧
       (∀ b, q.lower < b → b < qi.lower →
          countAt (qtInsert t i).histogram.counts b = 0) ∧
       (∀ b, qi.upper < b → b < q.upper →
          countAt (qtInsert t i).histogram.counts b = 0) ∧
       (∀ b, q.upper < b → b < qi.upper →
          countAt (qtInsert t i).histogram.counts b = 0)) ∧
      (1 ≤ countAt t.histogram.counts i ∧ 2 ≤ t.histogram.population →
       (∀ b, qr.lower < b → b < q.lower →
          countAt (qtRemove t i).histogram.counts b = 0) ∧
       (∀ b, q.lower < b → b < qr.lower →
          countAt (qtRemove t i).histogram.counts b = 0) ∧
       (∀ b, qr.upper < b → b < q.upper →
          countAt (qtRemove t i).histogram.counts b = 0) ∧
       (∀ b, q.upper < b → b < qr.upper →
          countAt (qtRemove t i).histogram.counts b = 0)) := by
  obtain ⟨hpops, hpop, hWt, hq⟩ := ht
  intro n q qi qr hn hni hnr
  have hmem : q ∈ t.quantiles := List.getElem?_mem hn
  obtain ⟨c1, c2, c3, c4, c5⟩ := hq q hmem
  simp only [qtInsert, qtRemove, HistogramBasic.insert, HistogramBasic.remove,
    if_pos hi] at hni hnr ⊢
  rw [List.getElem?_map, hn] at hni hnr
  simp only [Option.map_some'] at hni hnr
  obtain rfl := Option.some.inj hni
  obtain rfl := Option.some.inj hnr
  have hset1 := sumBelow_set_add t.histogram.counts hi 1
  have hsum1 : (t.histogram.counts.set i (countAt t.histogram.counts i + 1)).sum =
      t.histogram.counts.sum + 1 := sum_set_add t.histogram.counts hi 1
  have hp1 : t.histogram.population + 1 =
      (t.histogram.counts.set i (countAt t.histogram.counts i + 1)).sum := by
    rw [hsum1]; omega
  obtain ⟨f1, f2, _⟩ := find_quantile_spec t.histogram.counts q.num q.den c1 c2 (by omega)
  have hl0 : q.lower = (find_quantile t.histogram.counts
      t.histogram.counts.sum q.num q.den).lower := by rw [← c3]
  have hu0 : q.upper = (find_quantile t.histogram.counts
      t.histogram.counts.sum q.num q.den).upper := by rw [← c3]
  rw [← hl0] at f1
  rw [← hu0] at f2
  constructor
  · -- insert half
    rw [hp1]
    set h1 := t.histogram.counts.set i (countAt t.histogram.counts i + 1) with hh1
    set qb := (if i < q.upper then
        { q with samples_lower := q.samples_lower + 1 } else q) with hqb
    have hqb_num : qb.num = q.num := by rw [hqb]; split <;> rfl
    have hqb_den : qb.den = q.den := by rw [hqb]; split <;> rfl
    have hqb_up : qb.upper = q.upper := by rw [hqb]; split <;> rfl
    have hqb_sl : qb.samples_lower = sumBelow h1 qb.upper := by
      rw [hqb_up, hset1 q.upper, hqb]
      by_cases hiu : i < q.upper
      · rw [if_pos hiu, if_pos hiu]; dsimp only; omega
      · rw [if_neg hiu, if_neg hiu]; omega
    have hlen1 : h1.length = t.histogram.counts.length := by rw [hh1]; simp
    obtain ⟨a1, a2, a3, a4, a5, a6⟩ := adjust_spec h1 qb
      (by rw [hqb_num]; exact c1) (by rw [hqb_num, hqb_den]; exact c2)
      (by rw [hqb_up, hlen1]; exact c4)
      (by rw [hsum1]; omega) hqb_sl
    rw [hqb_num, hqb_den] at a1 a2
    have heqQ : h1.sum * q.num = t.histogram.counts.sum * q.num + q.num := by
      rw [hsum1]; ring
    have hS1 : ∀ x, sumBelow t.histogram.counts x ≤ sumBelow h1 x := by
      intro x
      have hx := hset1 x
      split at hx <;> omega
    have hS2 : ∀ x, sumBelow h1 x ≤ sumBelow t.histogram.counts x + 1 := by
      intro x
      have hx := hset1 x
      split at hx <;> omega
    have a11 := a1.1
    have a21 := a2.1
    rw [heqQ] at a11 a21
    exact ref_insert_skips_empty t.histogram.counts h1 q.num q.den
      (t.histogram.counts.sum * q.num) c2 hS1 hS2
      q.lower (adjust h1 h1.sum qb).lower q.upper (adjust h1 h1.sum qb).upper
      f1.1 f1.2 a11 (fun k hk => by have := a1.2 k hk; omega)
      f2.1 f2.2 a21 (fun k hk => by have := a2.2 k hk; omega)
  · -- remove half
    intro hrm
    obtain ⟨hc1, hpp2⟩ := hrm
    have hcW : countAt t.histogram.counts i < W := by
      have := countAt_le_sum t.histogram.counts i
      omega
    have hsubc : sub64 (countAt t.histogram.counts i) 1 =
        countAt t.histogram.counts i - 1 := sub64_exact hc1 hcW
    have hsubp : sub64 t.histogram.population 1 = t.histogram.population - 1 :=
      sub64_exact (by omega) hWt
    rw [hsubc, hsubp]
    have hset2 := sumBelow_set_sub t.histogram.counts hi hc1
    have hsum2 : (t.histogram.counts.set i (countAt t.histogram.counts i - 1)).sum =
        t.histogram.counts.sum - 1 := sum_set_sub t.histogram.counts hi hc1
    have hp2 : t.histogram.population - 1 =
        (t.histogram.counts.set i (countAt t.histogram.counts i - 1)).sum := by
      rw [hsum2]; omega
    rw [hp2]
    set h2 := t.histogram.counts.set i (countAt t.histogram.counts i - 1) with hh2
    set qb := (if i < q.upper then
        { q with samples_lower := sub64 q.samples_lower 1 } else q) with hqb
    have hqb_num : qb.num = q.num := by rw [hqb]; split <;> rfl
    have hqb_den : qb.den = q.den := by rw [hqb]; split <;> rfl
    have hqb_up : qb.upper = q.upper := by rw [hqb]; split <;> rfl
    have hqb_sl : qb.samples_lower = sumBelow h2 qb.upper := by
      rw [hqb_up, hset2 q.upper, hqb]
      by_cases hiu : i < q.upper
      · rw [if_pos hiu, if_pos hiu]
        dsimp only
        have hslpos : 1 ≤ q.samples_lower := by
          rw [c5]
          calc 1 ≤ countAt t.histogram.counts i := hc1
            _ ≤ sumBelow t.histogram.counts q.upper := countAt_le_sumBelow hiu
        have hslW : q.samples_lower < W := by
          rw [c5]
          have := sumBelow_le_sum t.histogram.counts q.upper
          omega
        rw [sub64_exact hslpos hslW]
        omega
      · rw [if_neg hiu, if_neg hiu]; omega
    have hlen2 : h2.length = t.histogram.counts.length := by rw [hh2]; simp
    obtain ⟨a1, a2, a3, a4, a5, a6⟩ := adjust_spec h2 qb
      (by rw [hqb_num]; exact c1) (by rw [hqb_num, hqb_den]; exact c2)
      (by rw [hqb_up, hlen2]; exact c4)
      (by rw [hsum2]; omega) hqb_sl
    rw [hqb_num, hqb_den] at a1 a2
    have heqQ : h2.sum * q.num + q.num = t.histogram.counts.sum * q.num := by
      rw [hsum2]
      rcases Nat.exists_eq_add_of_le (show 1 ≤ t.histogram.counts.sum by omega)
        with ⟨m, hm⟩
      rw [hm]
      simp only [Nat.add_sub_cancel_left]
      ring
    have hS1 : ∀ x, sumBelow h2 x ≤ sumBelow t.histogram.counts x := by
      intro x
      have hx := hset2 x
      split at hx <;> omega
    have hS2 : ∀ x, sumBelow t.histogram.counts x ≤ sumBelow h2 x + 1 := by
      intro x
      have hx := hset2 x
      have hd : (if i < x then 1 else 0) ≤ sumBelow t.histogram.counts x := by
        split
        · calc 1 ≤ countAt t.histogram.counts i := hc1
            _ ≤ sumBelow t.histogram.counts x := countAt_le_sumBelow (by omega)
        · omega
      split at hx <;> omega
    exact ref_remove_skips_empty t.histogram.counts h2 q.num q.den
      (t.histogram.counts.sum * q.num) (h2.sum * q.num) c2 heqQ hS1 hS2
      q.lower (adjust h2 h2.sum qb).lower q.upper (adjust h2 h2.sum qb).upper
      f1.1 f1.2 a1.1 a1.2 f2.1 f2.2 a2.1 a2.2

theorem monotonicity_amended_witness :
    ValidTracker T0 ∧ 0 < T0.histogram.counts.length ∧
    (1 ≤ countAt T0.histogram.counts 0 ∧ 2 ≤ T0.histogram.population) ∧
    T0.quantiles[0]? = some ⟨1, 2, 0, 1, 1, 0⟩ ∧
    (qtInsert T0 0).quantiles[0]? = some ⟨1, 2, 0, 0, 0, -1⟩ ∧
    (qtRemove T0 0).quantiles[0]? = some ⟨1, 2, 1, 1, 0, 0⟩ ∧
    (((∀ b, (⟨1, 2, 0, 0, 0, -1⟩ : QuantilePosition).lower < b →
          b < (⟨1, 2, 0, 1, 1, 0⟩ : QuantilePosition).lower →
          countAt (qtInsert T0 0).histogram.counts b = 0) ∧
      (∀ b, (⟨1, 2, 0, 1, 1, 0⟩ : QuantilePosition).lower < b →
          b < (⟨1, 2, 0, 0, 0, -1⟩ : QuantilePosition).lower →
          countAt (qtInsert T0 0).histogram.counts b = 0) ∧
      (∀ b, (⟨1, 2, 0, 0, 0, -1⟩ : QuantilePosition).upper < b →
          b < (⟨1, 2, 0, 1, 1, 0⟩ : QuantilePosition).upper →
          countAt (qtInsert T0 0).histogram.counts b = 0) ∧
      (∀ b, (⟨1, 2, 0, 1, 1, 0⟩ : QuantilePosition).upper < b →
          b < (⟨1, 2, 0, 0, 0, -1⟩ : QuantilePosition).upper →
          countAt (qtInsert T0 0).histogram.counts b = 0)) ∧
     ((∀ b, (⟨1, 2, 1, 1, 0, 0⟩ : QuantilePosition).lower < b →
          b < (⟨1, 2, 0, 1, 1, 0⟩ : QuantilePosition).lower →
          countAt (qtRemove T0 0).histogram.counts b = 0) ∧
      (∀ b, (⟨1, 2, 0, 1, 1, 0⟩ : QuantilePosition).lower < b →
          b < (⟨1, 2, 1, 1, 0, 0⟩ : QuantilePosition).lower →
          countAt (qtRemove T0 0).histogram.counts b = 0) ∧
      (∀ b, (⟨1, 2, 1, 1, 0, 0⟩ : QuantilePosition).upper < b →
          b < (⟨1, 2, 0, 1, 1, 0⟩ : QuantilePosition).upper →
          countAt (qtRemove T0 0).histogram.counts b = 0) ∧
      (∀ b, (⟨1, 2, 0, 1, 1, 0⟩ : QuantilePosition).upper < b →
          b < (⟨1, 2, 1, 1, 0, 0⟩ : QuantilePosition).upper →
          countAt (qtRemove T0 0).histogram.counts b = 0))) :=
  have H := monotonicity_amended T0 0 (by decide) (by decide)
    0 ⟨1, 2, 0, 1, 1, 0⟩ ⟨1, 2, 0, 0, 0, -1⟩ ⟨1, 2, 1, 1, 0, 0⟩
    (by decide) (by decide) (by decide)
  ⟨by decide, by decide, ⟨by decide, by decide⟩, by decide, by decide, by decide,
    H.1, H.2 ⟨by decide, by decide⟩⟩

/-- C6: on the binning with `bmin = 1` over three bins, `replace(1, 2)` maps
the samples to the distinct valid bin indices 0 and 1, so the claim requires
counts `[2, 0, 1]`; the code edits the cells at the RAW SAMPLE values 1 and 2
instead, producing `[1, 2, 0]` (the population, as claimed, is untouched). -/
theorem replace_cell_update_bug :
    qIndexFor Tc6 1 = some 0 ∧
    qIndexFor Tc6 2 = some 1 ∧
    (tqReplace Tc6 1 2).counts = [1, 2, 0] ∧
    (tqReplace Tc6 1 2).counts ≠ [2, 0, 1] ∧
    (tqReplace Tc6 1 2).population = Tc6.population := by
  decide

/-- C7: with `bmin = -2` over six unit bins and the converged median
`⟨2, 3⟩` (`samples_lower = 3`), `replace(2, 3)` maps the samples to bin
indices 4 and 5, both strictly above `range.upper = 3`, so the quantile is
skipped — but the histogram edit lands at the raw values 2 and 3, changing
bins at and below the range: the updated histogram's reference scan yields
`⟨2, 2⟩` and `samples_lower` should be 4, while the skipped quantile still
stores `⟨2, 3⟩` with `samples_lower = 3`.  The skip is unsound. -/
theorem replace_skip_unsound :
    (⟨2, 3⟩ : QuantileRange) = find_quantile Tc7.counts Tc7.counts.sum 1 2 ∧
    sumBelow Tc7.counts 3 = 3 ∧
    qIndexFor Tc7 2 = some 4 ∧
    qIndexFor Tc7 3 = some 5 ∧
    (tqReplace Tc7 2 3).counts = [1, 1, 2, 0, 1, 1] ∧
    ((tqReplace Tc7 2 3).quantiles.map fun q => (q.lower, q.upper, q.samples_lower)) =
      [(2, 3, 3)] ∧
    find_quantile [1, 1, 2, 0, 1, 1] ([1, 1, 2, 0, 1, 1] : List Nat).sum 1 2 =
      ⟨2, 2⟩ ∧
    sumBelow [1, 1, 2, 0, 1, 1] 3 = 4 := by
  decide

end Quern
